import Mathlib

/-!
Shallow embedding of the `smart-terminal-narrator` repository core:
`narrator/clean.py`, `narrator/capture.py`, `narrator/tts.py`,
`narrator/wakeword.py`, `narrator/stt.py` and `narrator/llm.py`.

Python strings are modelled as `List Char` (Unicode scalar values),
Python floats (times, confidences) as `ℚ`, machine processes and audio
handles as explicit records.  Fallible operations (`deque.popleft()` on
an empty deque) return `Option`.
-/

namespace Narrator

/-! ## Python string primitives

`str.splitlines`, `str.strip`, `"\n".join` as used by the sources.
-/

/-- The characters for which Python's `str.isspace()` is `True` (this is
exactly the set stripped by `str.strip()` with no arguments): `\t\n\v\f\r`,
`\x1c`-`\x1f`, space, NEL, NBSP, and the Unicode space separators. -/
def isPySpace (c : Char) : Bool :=
  (0x09 ≤ c.toNat && c.toNat ≤ 0x0d) ||
  (0x1c ≤ c.toNat && c.toNat ≤ 0x1f) ||
  c.toNat == 0x20 || c.toNat == 0x85 || c.toNat == 0xa0 ||
  c.toNat == 0x1680 ||
  (0x2000 ≤ c.toNat && c.toNat ≤ 0x200a) ||
  c.toNat == 0x2028 || c.toNat == 0x2029 ||
  c.toNat == 0x202f || c.toNat == 0x205f || c.toNat == 0x3000

/-- The line boundaries of Python's `str.splitlines`: `\n`, `\r` (with
`\r\n` counting as a single boundary), `\v`, `\f`, `\x1c`-`\x1e`, NEL,
LS, PS. -/
def isLineSep (c : Char) : Bool :=
  c.toNat == 0x0a || c.toNat == 0x0d ||
  c.toNat == 0x0b || c.toNat == 0x0c ||
  (0x1c ≤ c.toNat && c.toNat ≤ 0x1e) ||
  c.toNat == 0x85 || c.toNat == 0x2028 || c.toNat == 0x2029

/-- Prepend a character to the first line of a line list (creating that
line if there is none yet). -/
def consLine (c : Char) : List (List Char) → List (List Char)
  | [] => [[c]]
  | l :: ls => (c :: l) :: ls

/-- Worker for `pySplitlines`.  The flag records whether the previous
character was `\r`, in which case an immediately following `\n` belongs
to the same `\r\n` boundary and opens no extra line. -/
def pySplitlinesAux : Bool → List Char → List (List Char)
  | _, [] => []
  | afterCR, c :: rest =>
    if c = '\n' then
      if afterCR then pySplitlinesAux false rest
      else [] :: pySplitlinesAux false rest
    else if isLineSep c then [] :: pySplitlinesAux (c = '\r') rest
    else consLine c (pySplitlinesAux false rest)

/-- Python `str.splitlines()`: no terminal empty line (`"a\n"` gives
`["a"]`, `""` gives `[]`, `"\n"` gives `[""]`). -/
def pySplitlines (l : List Char) : List (List Char) :=
  pySplitlinesAux false l

/-- Python `str.strip()` with no arguments: remove leading and trailing
whitespace characters. -/
def pyStrip (l : List Char) : List Char :=
  ((l.dropWhile isPySpace).reverse.dropWhile isPySpace).reverse

/-- Python `"\n".join(lines)`: the separator goes between elements only. -/
def joinNL : List (List Char) → List Char
  | [] => []
  | [s] => s
  | s :: rest => s ++ '\n' :: joinNL rest

/-! ## `narrator/clean.py`: `strip_ansi`

`_ANSI_RE` removes ESC-introduced sequences, `_CONTROL_RE` removes C0/DEL
control characters, `_UNICODE_NOISE_RE` replaces runs of box-drawing and
private-use characters by a single space, and finally runs of two or more
spaces are collapsed to one.
-/

/-- `[A-Za-z]`, the final byte of a CSI sequence. -/
def isAnsiFinal (c : Char) : Bool :=
  ('A' ≤ c && c ≤ 'Z') || ('a' ≤ c && c ≤ 'z')

/-- `[0-9;?]`, the parameter bytes of a CSI sequence. -/
def isCsiParam (c : Char) : Bool :=
  ('0' ≤ c && c ≤ '9') || c == ';' || c == '?'

/-- The charset-switch selectors `[AB012]` accepted after `ESC (` / `ESC )`. -/
def isCharsetSel (c : Char) : Bool :=
  c == 'A' || c == 'B' || c == '0' || c == '1' || c == '2'

/-- Scan of the OSC body `.*?(?:\x07|\x1b\\)`: a lazy dot (which does not
match `\n`) up to the first BEL or `ESC \` terminator.  Returns the suffix
after the terminator, or `none` when the sequence never terminates. -/
def oscScan : List Char → Option (List Char)
  | [] => none
  | c :: rest =>
    if c = '\x07' then some rest
    else if c = '\n' then none
    else if c = '\x1b' ∧ rest.head? = some '\\' then some rest.tail
    else oscScan rest

/-- Attempt to match the body of `_ANSI_RE` right after an ESC character:
CSI (`[` params final), OSC (`]` body terminator), charset switching
(`(`/`)` selector), or keypad/cursor mode (`=`, `>`, `<`).  Returns the
remaining input after the matched sequence. -/
def tryAnsi : List Char → Option (List Char)
  | '[' :: r =>
    match r.dropWhile isCsiParam with
    | f :: r3 => if isAnsiFinal f then some r3 else none
    | [] => none
  | ']' :: r => oscScan r
  | '(' :: d :: r => if isCharsetSel d then some r else none
  | ')' :: d :: r => if isCharsetSel d then some r else none
  | '=' :: r => some r
  | '>' :: r => some r
  | '<' :: r => some r
  | _ => none

theorem oscScan_length : ∀ (l r : List Char), oscScan l = some r → r.length ≤ l.length := by
  intro l
  induction l with
  | nil => intro r h; simp [oscScan] at h
  | cons c rest ih =>
    intro r h
    rw [oscScan] at h
    split at h
    · cases h; simp
    · split at h
      · cases h
      · split at h
        · cases h
          have : rest.tail.length ≤ rest.length := by
            cases rest <;> simp
          simp; omega
        · have := ih r h; simp; omega

theorem tryAnsi_length : ∀ (l r : List Char), tryAnsi l = some r → r.length ≤ l.length := by
  intro l r h
  rw [tryAnsi.eq_def] at h
  split at h
  · -- CSI case
    rename_i t
    have hsub : (t.dropWhile isCsiParam).length ≤ t.length :=
      (List.dropWhile_sublist _).length_le
    split at h
    · rename_i f r3 hdw
      rw [hdw] at hsub
      split at h
      · cases h; simp at hsub ⊢; omega
      · cases h
    · cases h
  · rename_i t
    have := oscScan_length t r h
    simp; omega
  · split at h
    · cases h; simp; omega
    · cases h
  · split at h
    · cases h; simp; omega
    · cases h
  · cases h; simp
  · cases h; simp
  · cases h; simp
  · cases h

/-- `_ANSI_RE.sub("", text)`: delete every match of the escape-sequence
regex; an ESC that introduces no recognised sequence is kept. -/
def stripAnsiEsc (l : List Char) : List Char :=
  match l with
  | [] => []
  | c :: rest =>
    if c = '\x1b' then
      match h : tryAnsi rest with
      | some rest2 => stripAnsiEsc rest2
      | none => c :: stripAnsiEsc rest
    else c :: stripAnsiEsc rest
termination_by l.length
decreasing_by
  · have := tryAnsi_length rest rest2 h; simp; omega
  · simp
  · simp

/-- The character class of `_CONTROL_RE`:
`[\x00-\x08\x0b\x0c\x0e-\x1f\x7f]`. -/
def isCtrl (c : Char) : Bool :=
  c.toNat ≤ 0x08 || c.toNat == 0x0b || c.toNat == 0x0c ||
  (0x0e ≤ c.toNat && c.toNat ≤ 0x1f) || c.toNat == 0x7f

/-- `_CONTROL_RE.sub("", text)`. -/
def removeCtrl (l : List Char) : List Char :=
  l.filter (fun c => !isCtrl c)

/-- The character class of `_UNICODE_NOISE_RE`:
`[─-╿▀-▟■-◿⠀-⣿-`
`\U000f0000-\U000fffff]`. -/
def isUniNoise (c : Char) : Bool :=
  (0x2500 ≤ c.toNat && c.toNat ≤ 0x257f) ||
  (0x2580 ≤ c.toNat && c.toNat ≤ 0x259f) ||
  (0x25a0 ≤ c.toNat && c.toNat ≤ 0x25ff) ||
  (0x2800 ≤ c.toNat && c.toNat ≤ 0x28ff) ||
  (0xe000 ≤ c.toNat && c.toNat ≤ 0xf8ff) ||
  (0xf0000 ≤ c.toNat && c.toNat ≤ 0xfffff)

/-- Worker for `_UNICODE_NOISE_RE.sub(" ", text)`: each maximal run of
noise characters becomes one space.  The flag records whether we are
inside a run whose space has already been emitted. -/
def subNoiseAux : Bool → List Char → List Char
  | _, [] => []
  | inRun, c :: rest =>
    if isUniNoise c then
      if inRun then subNoiseAux true rest
      else ' ' :: subNoiseAux true rest
    else c :: subNoiseAux false rest

/-- `_UNICODE_NOISE_RE.sub(" ", text)`. -/
def subNoise (l : List Char) : List Char :=
  subNoiseAux false l

/-- Worker for `re.sub(r"  +", " ", text)`.  Every maximal run of two or
more spaces becomes a single space (a run of one is a non-match and is
also kept as a single space, so runs map to single spaces uniformly). -/
def collapseAux : Bool → List Char → List Char
  | _, [] => []
  | inRun, c :: rest =>
    if c = ' ' then
      if inRun then collapseAux true rest
      else ' ' :: collapseAux true rest
    else c :: collapseAux false rest

/-- `re.sub(r"  +", " ", text)`. -/
def collapseSpaces (l : List Char) : List Char :=
  collapseAux false l

/-- `strip_ansi` from `narrator/clean.py`: ANSI sequences, then control
characters, then Unicode decoration, then space collapsing. -/
def strip_ansi (l : List Char) : List Char :=
  collapseSpaces (subNoise (removeCtrl (stripAnsiEsc l)))

/-! ## `narrator/clean.py`: `_NOISE_PATTERNS`

Each regex of `_NOISE_PATTERNS` is translated to a boolean predicate on a
single line.  All sixteen patterns are anchored at the start (`^`), so
`p.search(line)` coincides with matching the pattern at position 0.
`$` is modelled as end-of-string (the patterns are applied to single
lines, which contain no newline, so Python's `$`-before-final-newline
nuance cannot arise).  The classes `\w` and `\d` are modelled by their
ASCII parts (Python's versions also cover non-ASCII letters and digits;
none of the proofs below depend on the extent of these classes). -/

/-- Leading `\s*`. -/
def dropSp (l : List Char) : List Char :=
  l.dropWhile isPySpace

/-- ASCII part of Python's `\w`. -/
def isWordCh (c : Char) : Bool :=
  c.isAlphanum || c == '_'

/-- ASCII part of Python's `\d`. -/
def isDigitCh (c : Char) : Bool :=
  c.isDigit

/-- The horizontal-rule characters `[─━┄┈╌═╍]`. -/
def isHRuleCh (c : Char) : Bool :=
  c == '─' || c == '━' || c == '┄' || c == '┈' || c == '╌' || c == '═' || c == '╍'

/-- The vertical-bar characters `[│┃┆┊╎║╏]`. -/
def isVBarCh (c : Char) : Bool :=
  c == '│' || c == '┃' || c == '┆' || c == '┊' || c == '╎' || c == '║' || c == '╏'

/-- The box-corner characters `[╭╮╰╯┌┐└┘]`. -/
def isCornerCh (c : Char) : Bool :=
  c == '╭' || c == '╮' || c == '╰' || c == '╯' ||
  c == '┌' || c == '┐' || c == '└' || c == '┘'

/-- `^\s*[─━┄┈╌═╍]+\s*$` (horizontal rules). -/
def noiseHRule (l : List Char) : Bool :=
  let m := dropSp l
  !(m.takeWhile isHRuleCh).isEmpty && (dropSp (m.dropWhile isHRuleCh)).isEmpty

/-- `^\s*[│┃┆┊╎║╏]+\s*$` (vertical bars only). -/
def noiseVBar (l : List Char) : Bool :=
  let m := dropSp l
  !(m.takeWhile isVBarCh).isEmpty && (dropSp (m.dropWhile isVBarCh)).isEmpty

/-- `^\s*[╭╮╰╯┌┐└┘]+` (box corners). -/
def noiseCorner (l : List Char) : Bool :=
  match dropSp l with
  | c :: _ => isCornerCh c
  | [] => false

/-- The tail `for\s+shortcuts\s*$` of the shortcuts pattern. -/
def forShortcutsTail (r1 : List Char) : Bool :=
  "for".toList.isPrefixOf r1 &&
  (match r1.drop 3 with
   | c :: _ =>
     isPySpace c &&
     "shortcuts".toList.isPrefixOf (dropSp (r1.drop 3)) &&
     (dropSp ((dropSp (r1.drop 3)).drop 9)).isEmpty
   | [] => false)

/-- `^\s*\?\s*(for\s+shortcuts)?\s*$` ("? for shortcuts"). -/
def noiseShortcuts (l : List Char) : Bool :=
  match dropSp l with
  | c :: r => c == '?' && ((dropSp r).isEmpty || forShortcutsTail (dropSp r))
  | [] => false

/-- The tail `.*"\s*$` after the opening quote of the Try pattern: some
closing quote (the dot does not cross `\n`) followed by whitespace only. -/
def closesQuote : List Char → Bool
  | [] => false
  | c :: r => (c == '"' && r.all isPySpace) || (c ≠ '\n' && closesQuote r)

/-- `^\s*Try\s+".*"\s*$` (autocomplete suggestions). -/
def noiseTry (l : List Char) : Bool :=
  let m := dropSp l
  "Try".toList.isPrefixOf m &&
  (match m.drop 3 with
   | c :: _ =>
     isPySpace c &&
     (match dropSp (m.drop 3) with
      | q :: r2 => q == '"' && closesQuote r2
      | [] => false)
   | [] => false)

/-- `^\s*/\w+\s+for\s+` ("/ide for ..." etc.). -/
def noiseSlashFor (l : List Char) : Bool :=
  match dropSp l with
  | c :: r =>
    c == '/' && !(r.takeWhile isWordCh).isEmpty &&
    (match r.dropWhile isWordCh with
     | d :: _ =>
       isPySpace d &&
       "for".toList.isPrefixOf (dropSp (r.dropWhile isWordCh)) &&
       (match (dropSp (r.dropWhile isWordCh)).drop 3 with
        | e :: _ => isPySpace e
        | [] => false)
     | [] => false)
  | [] => false

/-- Helper: word `a`, then `\s+`, then prefix word `b`. -/
def wordPair (a b : List Char) (m : List Char) : Bool :=
  a.isPrefixOf m &&
  (match m.drop a.length with
   | c :: _ => isPySpace c && b.isPrefixOf (dropSp (m.drop a.length))
   | [] => false)

/-- `^\s*(Welcome\s+back|Recent\s+activity|Tips\s+for)` (welcome screen). -/
def noiseWelcome (l : List Char) : Bool :=
  let m := dropSp l
  wordPair "Welcome".toList "back".toList m ||
  wordPair "Recent".toList "activity".toList m ||
  wordPair "Tips".toList "for".toList m

/-- `^\s*\d+[smh]\s+ago\s+` ("9m ago explain..."). -/
def noiseAgo (l : List Char) : Bool :=
  let m := dropSp l
  !(m.takeWhile isDigitCh).isEmpty &&
  (match m.dropWhile isDigitCh with
   | u :: r =>
     (u == 's' || u == 'm' || u == 'h') &&
     (match r with
      | c :: _ =>
        isPySpace c && "ago".toList.isPrefixOf (dropSp r) &&
        (match (dropSp r).drop 3 with
         | e :: _ => isPySpace e
         | [] => false)
      | [] => false)
   | [] => false)

/-- `^\s*/resume\s+for\s+more` (resume prompt). -/
def noiseResume (l : List Char) : Bool :=
  let m := dropSp l
  "/resume".toList.isPrefixOf m &&
  (match m.drop 7 with
   | c :: _ =>
     isPySpace c && "for".toList.isPrefixOf (dropSp (m.drop 7)) &&
     (match (dropSp (m.drop 7)).drop 3 with
      | d :: _ =>
        isPySpace d && "more".toList.isPrefixOf (dropSp ((dropSp (m.drop 7)).drop 3))
      | [] => false)
   | [] => false)

/-- `^\s*/release-notes` (release notes link). -/
def noiseRelNotes (l : List Char) : Bool :=
  "/release-notes".toList.isPrefixOf (dropSp l)

/-- The alternation `(Claude\s+Code|Opus|Sonnet|Haiku)`; returns the rest
of the line after the matched alternative. -/
def versionAlt (m : List Char) : Option (List Char) :=
  if "Claude".toList.isPrefixOf m then
    match m.drop 6 with
    | c :: _ =>
      if isPySpace c then
        if "Code".toList.isPrefixOf (dropSp (m.drop 6)) then
          some ((dropSp (m.drop 6)).drop 4)
        else none
      else none
    | [] => none
  else if "Opus".toList.isPrefixOf m then some (m.drop 4)
  else if "Sonnet".toList.isPrefixOf m then some (m.drop 6)
  else if "Haiku".toList.isPrefixOf m then some (m.drop 5)
  else none

/-- `^\s*(Claude\s+Code|Opus|Sonnet|Haiku)\s+[\d.]+` (version lines). -/
def noiseVersion (l : List Char) : Bool :=
  match versionAlt (dropSp l) with
  | some r =>
    (match r with
     | c :: _ =>
       isPySpace c &&
       !((dropSp r).takeWhile (fun d => isDigitCh d || d == '.')).isEmpty
     | [] => false)
  | none => false

/-- `^\s*Claude\s+Max\b` (plan info). -/
def noiseClaudeMax (l : List Char) : Bool :=
  let m := dropSp l
  "Claude".toList.isPrefixOf m &&
  (match m.drop 6 with
   | c :: _ =>
     isPySpace c && "Max".toList.isPrefixOf (dropSp (m.drop 6)) &&
     (match (dropSp (m.drop 6)).drop 3 with
      | d :: _ => !isWordCh d
      | [] => true)
   | [] => false)

/-- `^\s*~/` (path display). -/
def noiseTilde (l : List Char) : Bool :=
  "~/".toList.isPrefixOf (dropSp l)

/-- `What's` as a character list (apostrophe written via its code point). -/
def whatsWord : List Char := ['W', 'h', 'a', 't', Char.ofNat 39, 's']

/-- `^\s*What's\s+new` (changelog header). -/
def noiseWhatsNew (l : List Char) : Bool :=
  let m := dropSp l
  whatsWord.isPrefixOf m &&
  (match m.drop 6 with
   | c :: _ => isPySpace c && "new".toList.isPrefixOf (dropSp (m.drop 6))
   | [] => false)

/-- `^\s*Fixed\s+a\s+(crash|bug)` (changelog entries). -/
def noiseFixed (l : List Char) : Bool :=
  let m := dropSp l
  "Fixed".toList.isPrefixOf m &&
  (match m.drop 5 with
   | c :: _ =>
     isPySpace c &&
     (match dropSp (m.drop 5) with
      | a :: r2 =>
        a == 'a' &&
        (match r2 with
         | d :: _ =>
           isPySpace d &&
           ("crash".toList.isPrefixOf (dropSp r2) || "bug".toList.isPrefixOf (dropSp r2))
         | [] => false)
      | [] => false)
   | [] => false)

/-- `^\s*$` (blank lines). -/
def noiseBlank (l : List Char) : Bool :=
  (dropSp l).isEmpty

/-- `_NOISE_PATTERNS`, in source order. -/
def NOISE_PATTERNS : List (List Char → Bool) :=
  [noiseHRule, noiseVBar, noiseCorner, noiseShortcuts, noiseTry, noiseSlashFor,
   noiseWelcome, noiseAgo, noiseResume, noiseRelNotes, noiseVersion,
   noiseClaudeMax, noiseTilde, noiseWhatsNew, noiseFixed, noiseBlank]

/-- `any(p.search(line) for p in _NOISE_PATTERNS)`. -/
def isNoise (l : List Char) : Bool :=
  NOISE_PATTERNS.any (fun p => p l)

/-- The line loop of `clean_terminal_output`: strip each line, skip blank
lines and noise lines, keep the rest. -/
def cleanLines : List (List Char) → List (List Char)
  | [] => []
  | line :: rest =>
    let s := pyStrip line
    if s = [] then cleanLines rest
    else if isNoise s then cleanLines rest
    else s :: cleanLines rest

/-- `clean_terminal_output` from `narrator/clean.py`. -/
def clean_terminal_output (l : List Char) : List Char :=
  joinNL (cleanLines (pySplitlines (strip_ansi l)))

/-! ## `narrator/capture.py`: `get_new_output` -/

/-- The slice test `cur_lines[i : i + k] == anchor`. -/
def sliceEq (cur : List (List Char)) (i k : Nat) (anchor : List (List Char)) : Bool :=
  (cur.drop i).take k == anchor

/-- The inner loop `for i in range(len(cur_lines) - anchor_size, -1, -1)`:
scan start indices downward from `j` to 0 and return the first (hence
largest) `i` whose slice equals the anchor. -/
def findAnchorFrom (cur : List (List Char)) (k : Nat) (anchor : List (List Char)) :
    Nat → Option Nat
  | 0 => if sliceEq cur 0 k anchor then some 0 else none
  | j + 1 =>
    if sliceEq cur (j + 1) k anchor then some (j + 1)
    else findAnchorFrom cur k anchor j

/-- The downward search over the whole of `cur_lines`; empty when
`len(cur_lines) - anchor_size` is negative (Python's `range` is then
empty). -/
def findAnchorIdx (cur : List (List Char)) (k : Nat) (anchor : List (List Char)) :
    Option Nat :=
  if cur.length < k then none
  else findAnchorFrom cur k anchor (cur.length - k)

/-- The outer loop `for anchor_size in [5, 3, 2, 1]`: skip sizes larger
than the previous snapshot, otherwise search for the last `k` lines of
`prev` in `cur`; the first successful match ends the loop with the lines
after the anchor. -/
def anchorLoop (prev cur : List (List Char)) : List Nat → Option (List (List Char))
  | [] => none
  | k :: ks =>
    if prev.length < k then anchorLoop prev cur ks
    else
      match findAnchorIdx cur k (prev.drop (prev.length - k)) with
      | some i => some (cur.drop (i + k))
      | none => anchorLoop prev cur ks

/-- `"\n".join(lines).strip()` followed by `return new_text if new_text
else None`. -/
def joinStripOpt (lines : List (List Char)) : Option (List Char) :=
  let t := pyStrip (joinNL lines)
  if t = [] then none else some t

/-- `get_new_output` from `narrator/capture.py` (the same function appears
verbatim in `narrator.py`).  `current` and `previous` are the raw snapshot
strings; an empty `previous` is Python-falsy. -/
def get_new_output (current previous : List Char) : Option (List Char) :=
  if previous = [] then none
  else
    let prev_lines := pySplitlines previous
    let cur_lines := pySplitlines current
    if prev_lines = cur_lines then none
    else
      match anchorLoop prev_lines cur_lines [5, 3, 2, 1] with
      | some newLines => joinStripOpt newLines
      | none =>
        if prev_lines.length < cur_lines.length then
          joinStripOpt (cur_lines.drop prev_lines.length)
        else
          joinStripOpt (cur_lines.drop (cur_lines.length - min 20 cur_lines.length))

/-! ## `narrator/tts.py`: audio handle and `NarrationQueue`

The module-level `_current_audio_proc` handle and the queue's pending
deque and paused flag are modelled as one explicit state record.  A
process handle carries whether `poll()` would return `None` (still
running).  `deque.popleft()` on an empty deque raises `IndexError`, so
`enqueue` returns `Option`.
-/

/-- A `subprocess.Popen` handle: `running = true` iff `poll()` is `None`. -/
structure AudioProc where
  running : Bool
deriving DecidableEq, Repr

/-- A narration item `(text, is_question)`. -/
abbrev NarrationItem : Type := List Char × Bool

/-- The mutable state touched by `NarrationQueue.enqueue` / `interrupt` /
pause / resume together with the module-level audio handle. -/
structure QueueState where
  pending : List NarrationItem
  paused : Bool
  maxPending : Nat
  audio : Option AudioProc

/-- `interrupt_audio()` from `narrator/tts.py`: if a current process
exists and is still running, terminate it and drop the handle; an
already-finished handle is left in place. -/
def interrupt_audio (a : Option AudioProc) : Option AudioProc :=
  match a with
  | some p => if p.running then none else some p
  | none => none

/-- `NarrationQueue.enqueue`: a silent no-op while paused; otherwise when
the deque is at (or beyond) `max_pending`, pop the oldest item first and
append the new one.  `none` models the `IndexError` of `popleft()` on an
empty deque (reachable only with `max_pending = 0`). -/
def enqueue (st : QueueState) (text : List Char) (is_question : Bool) :
    Option QueueState :=
  if st.paused then some st
  else if st.maxPending ≤ st.pending.length then
    match st.pending with
    | [] => none
    | _ :: rest => some { st with pending := rest ++ [(text, is_question)] }
  else some { st with pending := st.pending ++ [(text, is_question)] }

/-- A sequence of `enqueue` calls. -/
def enqueueAll (st : QueueState) : List NarrationItem → Option QueueState
  | [] => some st
  | it :: its =>
    match enqueue st it.1 it.2 with
    | some st2 => enqueueAll st2 its
    | none => none

/-- `self.paused.set()` (the command channel's pause). -/
def pauseQ (st : QueueState) : QueueState :=
  { st with paused := true }

/-- `self.paused.clear()` (the command channel's resume). -/
def resumeQ (st : QueueState) : QueueState :=
  { st with paused := false }

/-- `NarrationQueue.interrupt`: clear the pending deque, then
`interrupt_audio()`. -/
def interruptQ (st : QueueState) : QueueState :=
  { st with pending := [], audio := interrupt_audio st.audio }

/-- A fresh unpaused queue with bound `n` and no playback. -/
def emptyQueue (n : Nat) : QueueState :=
  { pending := [], paused := false, maxPending := n, audio := none }

/-! ## `narrator/wakeword.py`: the cooldown logic of `_listen_loop`

Times and scores (Python floats) are modelled as rationals.  One loop
iteration processes one audio frame: `prediction.items()` is a list of
scores; the first score that reaches `threshold` while `now ≥
cooldown_until` fires the callback, sets `cooldown_until = now + 3.0`
and breaks out of the score loop. -/

/-- The score loop of one frame: returns the new `cooldown_until` and
whether the wake callback fired. -/
def wwStep (threshold cooldown_until now : ℚ) : List ℚ → ℚ × Bool
  | [] => (cooldown_until, false)
  | sc :: rest =>
    if threshold ≤ sc ∧ cooldown_until ≤ now then (now + 3, true)
    else wwStep threshold cooldown_until now rest

/-- Run the listen loop over a sequence of frames, each a pair of the
monotonic time at that iteration and the frame's prediction scores;
collects which frames fired the callback.  The initial `cooldown_until`
is `0.0`. -/
def wwRun (threshold cooldown_until : ℚ) : List (ℚ × List ℚ) → ℚ × List Bool
  | [] => (cooldown_until, [])
  | (now, scores) :: frames =>
    let r := wwStep threshold cooldown_until now scores
    let rest := wwRun threshold r.1 frames
    (rest.1, r.2 :: rest.2)

/-! ## `narrator/stt.py`: `record_utterance` and `listen_and_transcribe`

One loop iteration of `record_utterance` reads a fixed 512-sample frame.
A frame is modelled as the monotonic time observed during that iteration,
the Silero confidence for the frame, and the frame's samples.  The
speech threshold is the source's fixed `0.5`. -/

/-- One microphone frame. -/
structure Frame where
  t : ℚ
  conf : ℚ
  data : List ℚ

/-- The recording loop: wait for speech (confidence reaching `1/2`),
then record until `silence_timeout` of continuous below-threshold time;
the whole loop stops at the first iteration whose time has reached the
deadline.  Returns the recorded frames. -/
def recordLoop (deadline silence_timeout : ℚ) (speech_started : Bool)
    (silence_start : Option ℚ) (acc : List (List ℚ)) : List Frame → List (List ℚ)
  | [] => acc
  | f :: rest =>
    if f.t < deadline then
      if speech_started then
        let acc2 := acc ++ [f.data]
        if f.conf < 1/2 then
          match silence_start with
          | none => recordLoop deadline silence_timeout true (some f.t) acc2 rest
          | some s0 =>
            if silence_timeout ≤ f.t - s0 then acc2
            else recordLoop deadline silence_timeout true (some s0) acc2 rest
        else recordLoop deadline silence_timeout true none acc2 rest
      else
        if 1/2 ≤ f.conf then
          recordLoop deadline silence_timeout true none (acc ++ [f.data]) rest
        else recordLoop deadline silence_timeout false silence_start acc rest
    else acc

/-- `record_utterance`: run the loop from `start` with deadline
`start + listen_timeout`; `None` when nothing was recorded, otherwise the
concatenation of the recorded frames. -/
def record_utterance (silence_timeout listen_timeout start : ℚ)
    (frames : List Frame) : Option (List ℚ) :=
  let fs := recordLoop (start + listen_timeout) silence_timeout false none [] frames
  if fs = [] then none else some fs.flatten

/-- `listen_and_transcribe`, parameterised by the external transcription
collaborator `transcribeF` (whose raw text output is stripped by
`transcribe`): `None` on no recording, on fewer than 1600 samples, or on
empty transcribed text. -/
def listen_and_transcribe (transcribeF : List ℚ → List Char)
    (silence_timeout listen_timeout start : ℚ) (frames : List Frame) :
    Option (List Char) :=
  match record_utterance silence_timeout listen_timeout start frames with
  | none => none
  | some audio =>
    if audio.length < 1600 then none
    else
      let text := pyStrip (transcribeF audio)
      if text = [] then none else some text

/-! ## `narrator/llm.py`: response truncation of `filter_with_llm`

`result[:500].rsplit(" ", 1)[0] + "..."` for responses longer than 500
characters (identical in `narrator.py`'s `filter_with_llm`). -/

/-- `x.rsplit(" ", 1)[0]`: everything before the last space, or the whole
string when it contains no space. -/
def rsplitSpaceHead (l : List Char) : List Char :=
  match l.reverse.dropWhile (fun c => !(c == ' ')) with
  | [] => l
  | _ :: front => front.reverse

/-- The response-truncation step of `filter_with_llm`. -/
def truncate_narration (result : List Char) : List Char :=
  if 500 < result.length then
    rsplitSpaceHead (result.take 500) ++ ['.', '.', '.']
  else result

/-! ## Spec-side formulation of the anchor algorithm (for C1)

The following definitions transcribe the specification's wording of the
Delta Extractor's anchor phase, to be compared with the source-derived
`get_new_output`: "for anchor sizes `[5,3,2,1]` (largest first), take the
last k lines of the previous snapshot as an anchor sequence and search
the current snapshot's lines ... for the most recent occurrence of that
exact contiguous sequence.  On the first successful match at anchor size
k, the new text is everything in the current snapshot after the matched
anchor; return it trimmed, or `None` if empty." -/

/-- An occurrence of `anchor` as the contiguous slice of `cur` of length
`k` starting at `i`. -/
def specOcc (cur : List (List Char)) (k : Nat) (anchor : List (List Char))
    (i : Nat) : Prop :=
  i + k ≤ cur.length ∧ (cur.drop i).take k = anchor

instance specOccDecidable (cur : List (List Char)) (k : Nat)
    (anchor : List (List Char)) : DecidablePred (specOcc cur k anchor) := by
  intro i
  unfold specOcc
  infer_instance

/-- The most recent (latest-starting) occurrence of `anchor` in `cur`. -/
def specLatestOcc (cur : List (List Char)) (k : Nat)
    (anchor : List (List Char)) : Option Nat :=
  if specOcc cur k anchor (Nat.findGreatest (specOcc cur k anchor) cur.length)
  then some (Nat.findGreatest (specOcc cur k anchor) cur.length)
  else none

/-- The spec's anchor phase over a list of anchor sizes: the first size
not exceeding the previous snapshot's line count whose anchor occurs in
the current snapshot yields its trimmed remainder (`none` when that
remainder is empty); `none` at the outer level means no anchor size
matched. -/
def anchorDeltaSpecGo (prev cur : List (List Char)) :
    List Nat → Option (Option (List Char))
  | [] => none
  | k :: ks =>
    if prev.length < k then anchorDeltaSpecGo prev cur ks
    else
      match specLatestOcc cur k (prev.drop (prev.length - k)) with
      | some i =>
        let t := pyStrip (joinNL (cur.drop (i + k)))
        some (if t = [] then none else some t)
      | none => anchorDeltaSpecGo prev cur ks

/-- The spec's anchor phase with the spec's anchor sizes. -/
def anchorDeltaSpec (prev cur : List (List Char)) : Option (Option (List Char)) :=
  anchorDeltaSpecGo prev cur [5, 3, 2, 1]

/-! Characterisation of the source's downward anchor scan. -/

theorem sliceEq_iff {cur : List (List Char)} {k : Nat} {anchor : List (List Char)}
    (hk : anchor.length = k) (hk1 : 1 ≤ k) (i : Nat) :
    sliceEq cur i k anchor = true ↔ specOcc cur k anchor i := by
  unfold sliceEq specOcc
  simp only [beq_iff_eq]
  constructor
  · intro h
    refine ⟨?_, h⟩
    have hlen : ((cur.drop i).take k).length = k := by rw [h, hk]
    simp only [List.length_take, List.length_drop] at hlen
    rcases Nat.le_total k (cur.length - i) with hc | hc
    · omega
    · rw [Nat.min_eq_right hc] at hlen
      omega
  · exact fun h => h.2

theorem findAnchorFrom_some {cur : List (List Char)} {k : Nat}
    {anchor : List (List Char)} :
    ∀ j i, findAnchorFrom cur k anchor j = some i →
      sliceEq cur i k anchor = true ∧ i ≤ j ∧
        ∀ i2, i < i2 → i2 ≤ j → sliceEq cur i2 k anchor = false := by
  intro j
  induction j with
  | zero =>
    intro i h
    rw [findAnchorFrom] at h
    split at h
    · cases h
      refine ⟨by assumption, le_refl _, ?_⟩
      intro i2 h1 h2; omega
    · cases h
  | succ j ih =>
    intro i h
    rw [findAnchorFrom] at h
    split at h
    · cases h
      refine ⟨by assumption, le_refl _, ?_⟩
      intro i2 h1 h2; omega
    · rename_i hslice
      obtain ⟨h1, h2, h3⟩ := ih i h
      refine ⟨h1, by omega, ?_⟩
      intro i2 hgt hle
      rcases Nat.lt_or_ge i2 (j + 1) with hlt | hge
      · exact h3 i2 hgt (by omega)
      · have : i2 = j + 1 := by omega
        subst this
        simpa using hslice

theorem findAnchorFrom_none {cur : List (List Char)} {k : Nat}
    {anchor : List (List Char)} :
    ∀ j, findAnchorFrom cur k anchor j = none →
      ∀ i, i ≤ j → sliceEq cur i k anchor = false := by
  intro j
  induction j with
  | zero =>
    intro h i hi
    rw [findAnchorFrom] at h
    split at h
    · cases h
    · rename_i hs
      have : i = 0 := by omega
      subst this
      simpa using hs
  | succ j ih =>
    intro h i hi
    rw [findAnchorFrom] at h
    split at h
    · cases h
    · rename_i hs
      rcases Nat.lt_or_ge i (j + 1) with hlt | hge
      · exact ih h i (by omega)
      · have : i = j + 1 := by omega
        subst this
        simpa using hs

/-- The source's downward scan computes exactly the spec's "most recent
occurrence". -/
theorem findAnchorIdx_eq_specLatestOcc {cur : List (List Char)} {k : Nat}
    {anchor : List (List Char)} (hk : anchor.length = k) (hk1 : 1 ≤ k) :
    findAnchorIdx cur k anchor = specLatestOcc cur k anchor := by
  unfold findAnchorIdx specLatestOcc
  by_cases hlen : cur.length < k
  · simp only [if_pos hlen]
    have hno : ∀ i, ¬ specOcc cur k anchor i := by
      intro i hocc
      have := hocc.1
      omega
    rw [if_neg (hno _)]
  · simp only [if_neg hlen]
    match hfind : findAnchorFrom cur k anchor (cur.length - k) with
    | some i =>
      obtain ⟨hsl, hle, hmax⟩ := findAnchorFrom_some _ i hfind
      have hocc : specOcc cur k anchor i := (sliceEq_iff hk hk1 i).mp hsl
      have hbound : ∀ i2, specOcc cur k anchor i2 → i2 ≤ cur.length - k := by
        intro i2 h2
        have := h2.1
        omega
      have hfg : Nat.findGreatest (specOcc cur k anchor) cur.length = i := by
        have hle2 : i ≤ Nat.findGreatest (specOcc cur k anchor) cur.length :=
          Nat.le_findGreatest (by omega) hocc
        have hspec : specOcc cur k anchor
            (Nat.findGreatest (specOcc cur k anchor) cur.length) :=
          Nat.findGreatest_spec (m := i) (by omega) hocc
        have hge : Nat.findGreatest (specOcc cur k anchor) cur.length ≤ i := by
          by_contra hc
          push_neg at hc
          have h4 := hmax _ hc (hbound _ hspec)
          rw [(sliceEq_iff hk hk1 _).mpr hspec] at h4
          cases h4
        omega
      rw [hfg, if_pos hocc]
    | none =>
      have hno : ∀ i, ¬ specOcc cur k anchor i := by
        intro i hocc
        have hb : i ≤ cur.length - k := by
          have := hocc.1; omega
        have := findAnchorFrom_none _ hfind i hb
        rw [(sliceEq_iff hk hk1 i).mpr hocc] at this
        cases this
      rw [if_neg (hno _)]

/-! ## Narration queue lemmas -/

theorem enqueue_paused {st : QueueState} (h : st.paused = true)
    (text : List Char) (q : Bool) : enqueue st text q = some st := by
  unfold enqueue
  rw [if_pos h]

theorem enqueueAll_paused {st : QueueState} (h : st.paused = true) :
    ∀ l : List NarrationItem, enqueueAll st l = some st := by
  intro l
  induction l with
  | nil => rfl
  | cons it its ih =>
    show (match enqueue st it.1 it.2 with
          | some st2 => enqueueAll st2 its
          | none => none) = some st
    rw [enqueue_paused h]
    exact ih

theorem enqueue_length {st st2 : QueueState} {text : List Char} {q : Bool}
    (hlen : st.pending.length ≤ st.maxPending)
    (h : enqueue st text q = some st2) :
    st2.pending.length ≤ st.maxPending ∧ st2.maxPending = st.maxPending ∧
      st2.paused = st.paused := by
  unfold enqueue at h
  split at h
  · cases h
    exact ⟨hlen, rfl, rfl⟩
  · split at h
    · rename_i hfull
      match hp : st.pending, h with
      | p :: rest, h =>
        rw [hp] at hfull hlen
        cases h
        refine ⟨?_, rfl, rfl⟩
        simp only [List.length_append, List.length_cons, List.length_nil] at *
        omega
    · rename_i hfull
      cases h
      refine ⟨?_, rfl, rfl⟩
      simp only [List.length_append, List.length_cons, List.length_nil]
      omega

theorem enqueueAll_length :
    ∀ (l : List NarrationItem) (st st2 : QueueState),
      st.pending.length ≤ st.maxPending → enqueueAll st l = some st2 →
        st2.pending.length ≤ st.maxPending ∧ st2.maxPending = st.maxPending := by
  intro l
  induction l with
  | nil =>
    intro st st2 hlen h
    cases h
    exact ⟨hlen, rfl⟩
  | cons it its ih =>
    intro st st2 hlen h
    unfold enqueueAll at h
    split at h
    · rename_i st3 henq
      obtain ⟨h1, h2, _⟩ := enqueue_length hlen henq
      obtain ⟨h3, h4⟩ := ih st3 st2 (h2 ▸ h1) h
      exact ⟨h2 ▸ h3, h2 ▸ h4⟩
    · cases h

theorem enqueueAll_append (a b : List NarrationItem) :
    ∀ st : QueueState, enqueueAll st (a ++ b) =
      match enqueueAll st a with
      | some st2 => enqueueAll st2 b
      | none => none := by
  induction a with
  | nil => intro st; rfl
  | cons it its ih =>
    intro st
    have hR : enqueueAll st (it :: its) =
        (match enqueue st it.1 it.2 with
         | some st2 => enqueueAll st2 its
         | none => none) := rfl
    rw [List.cons_append, hR]
    show (match enqueue st it.1 it.2 with
          | some st2 => enqueueAll st2 (its ++ b)
          | none => none) = _
    cases enqueue st it.1 it.2 with
    | none => rfl
    | some st2 =>
      show enqueueAll st2 (its ++ b) = _
      exact ih st2

theorem enqueueAll_fill :
    ∀ (l : List NarrationItem) (st : QueueState), st.paused = false →
      st.pending.length + l.length ≤ st.maxPending →
        enqueueAll st l = some { st with pending := st.pending ++ l } := by
  intro l
  induction l with
  | nil =>
    intro st hp hlen
    simp [enqueueAll]
  | cons it its ih =>
    intro st hp hlen
    simp only [List.length_cons] at hlen
    show (match enqueue st it.1 it.2 with
          | some st2 => enqueueAll st2 its
          | none => none) = _
    unfold enqueue
    rw [if_neg (by simp [hp]), if_neg (by omega)]
    show enqueueAll { st with pending := st.pending ++ [(it.1, it.2)] } its = _
    rw [ih { st with pending := st.pending ++ [(it.1, it.2)] }
      (by simp [hp]) (by simp; omega)]
    simp

/-- **C2.** The narration queue is bounded: any single `enqueue`, and any
sequence of `enqueue`s, keeps `len(pending) ≤ N`; and enqueuing `N + 1`
items into an empty queue bounded at `N ≥ 1` leaves exactly the `N` most
recent items in insertion order (the oldest was evicted). -/
theorem narration_queue_bound_and_overflow :
    (∀ (st st2 : QueueState) (text : List Char) (q : Bool),
        st.pending.length ≤ st.maxPending → enqueue st text q = some st2 →
          st2.pending.length ≤ st.maxPending) ∧
    (∀ (l : List NarrationItem) (st st2 : QueueState),
        st.pending.length ≤ st.maxPending → enqueueAll st l = some st2 →
          st2.pending.length ≤ st.maxPending) ∧
    (∀ (N : Nat) (l : List NarrationItem), 1 ≤ N → l.length = N + 1 →
        enqueueAll (emptyQueue N) l =
          some { emptyQueue N with pending := l.drop 1 }) := by
  refine ⟨?_, ?_, ?_⟩
  · intro st st2 text q hlen h
    exact (enqueue_length hlen h).1
  · intro l st st2 hlen h
    exact (enqueueAll_length l st st2 hlen h).1
  · intro N l hN hlen
    have hsplit : l = l.take N ++ l.drop N := (List.take_append_drop N l).symm
    have hdroplen : (l.drop N).length = 1 := by
      simp [List.length_drop, hlen]
    obtain ⟨x, hx⟩ : ∃ x, l.drop N = [x] := by
      match hd : l.drop N with
      | [x] => exact ⟨x, rfl⟩
      | [] => rw [hd] at hdroplen; simp at hdroplen
      | x :: y :: r => rw [hd] at hdroplen; simp at hdroplen
    have htakelen : (l.take N).length = N := by
      simp [List.length_take]
      omega
    rw [hsplit, enqueueAll_append]
    have hfill := enqueueAll_fill (l.take N) (emptyQueue N) rfl
      (by simp [emptyQueue])
    rw [hfill]
    obtain ⟨y, rest, hyr⟩ : ∃ y rest, l.take N = y :: rest := by
      match ht : l.take N with
      | y :: rest => exact ⟨y, rest, rfl⟩
      | [] => rw [ht] at htakelen; simp at htakelen; omega
    rw [hx, hyr]
    show (match enqueue { emptyQueue N with pending := [] ++ y :: rest } x.1 x.2 with
          | some st2 => enqueueAll st2 []
          | none => none) = _
    unfold enqueue
    rw [if_neg (by simp [emptyQueue])]
    rw [if_pos (by
      simp only [emptyQueue, List.nil_append, List.length_cons]
      rw [hyr] at htakelen
      simp only [List.length_cons] at htakelen
      omega)]
    simp only [emptyQueue, List.nil_append]
    rfl

/-- Witness for C2 at `N = 1` and two concrete items. -/
theorem narration_queue_bound_and_overflow_witness :
    enqueueAll (emptyQueue 1) [(['a'], false), (['b'], true)] =
      some { emptyQueue 1 with pending := [(['b'], true)] } := by
  have h := narration_queue_bound_and_overflow.2.2 1
    [(['a'], false), (['b'], true)] (by norm_num) (by rfl)
  simpa using h

/-- **C10.** While paused, `enqueue` is a no-op: a whole sequence of
`enqueue` calls between `pause()` and `resume()` leaves the state exactly
as paused, the pending queue after `resume()` equals the original one,
and no item enqueued while paused that was not already pending is pending
after `resume()`. -/
theorem paused_enqueue_noop :
    ∀ (st : QueueState) (l : List NarrationItem),
      enqueueAll (pauseQ st) l = some (pauseQ st) ∧
      (resumeQ (pauseQ st)).pending = st.pending ∧
      (∀ it, it ∈ l → it ∉ st.pending → it ∉ (resumeQ (pauseQ st)).pending) := by
  intro st l
  refine ⟨enqueueAll_paused rfl l, rfl, ?_⟩
  intro it _ hnot
  exact hnot

/-- Witness for C10 at a concrete state and item list. -/
theorem paused_enqueue_noop_witness :
    (['x'], false) ∉ (resumeQ (pauseQ (emptyQueue 3))).pending := by
  have h := paused_enqueue_noop (emptyQueue 3) [(['x'], false)]
  exact h.2.2 (['x'], false) (by simp) (by simp [emptyQueue])

/-- **C3.** `interrupt()` is total: afterwards the pending queue is empty
and the audio handle is terminated or absent — if a handle remains it is
of an already-finished process, an absent handle stays absent, and a
running process's handle is terminated and removed. -/
theorem interrupt_clears_and_kills :
    ∀ st : QueueState,
      (interruptQ st).pending = [] ∧
      (∀ p, (interruptQ st).audio = some p → p.running = false) ∧
      (st.audio = none → (interruptQ st).audio = none) ∧
      (∀ p, st.audio = some p → p.running = true → (interruptQ st).audio = none) := by
  intro st
  obtain ⟨pend, paus, mp, aud⟩ := st
  refine ⟨rfl, ?_, ?_, ?_⟩
  · intro p hp
    cases aud with
    | none => simp [interruptQ, interrupt_audio] at hp
    | some p2 =>
      by_cases hr : p2.running
      · simp [interruptQ, interrupt_audio, hr] at hp
      · simp [interruptQ, interrupt_audio, hr] at hp
        rw [← hp]
        simpa using hr
  · intro h
    simp only at h
    simp [interruptQ, interrupt_audio, h]
  · intro p hp hr
    simp only at hp
    simp [interruptQ, interrupt_audio, hp, hr]

/-- Witness for C3 at a concrete state holding a finished process handle. -/
theorem interrupt_clears_and_kills_witness :
    (interruptQ { pending := [(['x'], false)], paused := false, maxPending := 3,
                  audio := some ⟨false⟩ }).pending = [] ∧
    (⟨false⟩ : AudioProc).running = false := by
  have h := interrupt_clears_and_kills
    { pending := [(['x'], false)], paused := false, maxPending := 3,
      audio := some ⟨false⟩ }
  exact ⟨h.1, h.2.1 ⟨false⟩ rfl⟩

/-! ## Wake-word cooldown lemmas (C5) -/

theorem wwStep_fired_iff (threshold cooldown_until now : ℚ) :
    ∀ scores : List ℚ,
      (wwStep threshold cooldown_until now scores).2 = true ↔
        (cooldown_until ≤ now ∧ ∃ sc ∈ scores, threshold ≤ sc) := by
  intro scores
  induction scores with
  | nil => simp [wwStep]
  | cons sc rest ih =>
    rw [wwStep]
    split
    · rename_i hcond
      simp only [true_iff]
      exact ⟨hcond.2, sc, List.mem_cons_self sc rest, hcond.1⟩
    · rename_i hcond
      rw [ih]
      constructor
      · rintro ⟨h1, s2, hs2, h2⟩
        exact ⟨h1, s2, List.mem_cons_of_mem sc hs2, h2⟩
      · rintro ⟨h1, s2, hs2, h2⟩
        rcases List.mem_cons.mp hs2 with heq | hmem
        · subst heq
          exact absurd ⟨h2, h1⟩ hcond
        · exact ⟨h1, s2, hmem, h2⟩

theorem wwStep_fired_cooldown {threshold cooldown_until now : ℚ} :
    ∀ scores : List ℚ,
      ((wwStep threshold cooldown_until now scores).2 = true →
        (wwStep threshold cooldown_until now scores).1 = now + 3) ∧
      ((wwStep threshold cooldown_until now scores).2 = false →
        (wwStep threshold cooldown_until now scores).1 = cooldown_until) := by
  intro scores
  induction scores with
  | nil => simp [wwStep]
  | cons sc rest ih =>
    rw [wwStep]
    split
    · simp
    · exact ih

/-- **C5.** Wake-word cooldown: in a frame the callback fires iff some
score reaches the threshold while the time has passed `cooldown_until`;
firing sets `cooldown_until = now + 3.0` and a non-firing frame leaves it
unchanged; consequently two above-threshold detections within the 3 s
window fire the callback exactly once, and a detection after the window
fires it again (fired pattern `[true, false, true]`). -/
theorem wake_cooldown_once_per_window :
    (∀ (threshold cooldown_until now : ℚ) (scores : List ℚ),
        (wwStep threshold cooldown_until now scores).2 = true ↔
          (cooldown_until ≤ now ∧ ∃ sc ∈ scores, threshold ≤ sc)) ∧
    (∀ (threshold cooldown_until now : ℚ) (scores : List ℚ),
        ((wwStep threshold cooldown_until now scores).2 = true →
          (wwStep threshold cooldown_until now scores).1 = now + 3) ∧
        ((wwStep threshold cooldown_until now scores).2 = false →
          (wwStep threshold cooldown_until now scores).1 = cooldown_until)) ∧
    (∀ threshold t1 t2 t3 s1 s2 s3 : ℚ,
        threshold ≤ s1 → threshold ≤ s2 → threshold ≤ s3 →
        0 ≤ t1 → t1 ≤ t2 → t2 < t1 + 3 → t1 + 3 ≤ t3 →
        (wwRun threshold 0 [(t1, [s1]), (t2, [s2]), (t3, [s3])]).2 =
          [true, false, true]) := by
  refine ⟨wwStep_fired_iff, fun a b c d => wwStep_fired_cooldown d, ?_⟩
  intro threshold t1 t2 t3 s1 s2 s3 hs1 hs2 hs3 ht1 ht12 ht2 ht3
  have h1 : wwStep threshold 0 t1 [s1] = (t1 + 3, true) := by
    rw [wwStep, if_pos ⟨hs1, ht1⟩]
  have h2 : wwStep threshold (t1 + 3) t2 [s2] = (t1 + 3, false) := by
    rw [wwStep, if_neg (by
      rintro ⟨_, hc⟩
      linarith), wwStep]
  have h3 : wwStep threshold (t1 + 3) t3 [s3] = (t3 + 3, true) := by
    rw [wwStep, if_pos ⟨hs3, ht3⟩]
  show ((wwRun threshold 0 [(t1, [s1]), (t2, [s2]), (t3, [s3])]).2 = _)
  rw [wwRun, h1]
  rw [wwRun, h2]
  rw [wwRun, h3]
  rfl

/-- Witness for C5 at concrete threshold, times and scores. -/
theorem wake_cooldown_once_per_window_witness :
    (wwRun (1/2) 0 [(0, [1]), (1, [1]), (3, [1])]).2 = [true, false, true] := by
  exact wake_cooldown_once_per_window.2.2 (1/2) 0 1 3 1 1 1
    (by norm_num) (by norm_num) (by norm_num) (by norm_num) (by norm_num)
    (by norm_num) (by norm_num)

/-! ## Voice-capture timeout lemmas (C7) -/

theorem recordLoop_no_speech {deadline silence_timeout : ℚ}
    {silence_start : Option ℚ} {acc : List (List ℚ)} :
    ∀ frames : List Frame,
      (∀ f ∈ frames, f.t < deadline → f.conf < 1/2) →
      recordLoop deadline silence_timeout false silence_start acc frames = acc := by
  intro frames
  induction frames with
  | nil => intro _; rfl
  | cons f rest ih =>
    intro h
    rw [recordLoop]
    split
    · rename_i ht
      rw [if_neg (show ¬ (false = true) by simp)]
      rw [if_neg (by
        have := h f (List.mem_cons_self f rest) ht
        intro hc
        linarith)]
      exact ih (fun g hg => h g (List.mem_cons_of_mem f hg))
    · rfl

/-- **C7.** If no frame reaches the speech threshold before the listen
deadline, `listen_and_transcribe` returns `None` — for every possible
transcription collaborator, i.e. without invoking transcription; likewise
when the recorded audio is shorter than 1600 samples (0.1 s). -/
theorem listen_timeout_returns_none :
    (∀ (transcribeF : List ℚ → List Char) (silence_timeout listen_timeout start : ℚ)
        (frames : List Frame),
        (∀ f ∈ frames, f.t < start + listen_timeout → f.conf < 1/2) →
        listen_and_transcribe transcribeF silence_timeout listen_timeout start frames
          = none) ∧
    (∀ (transcribeF : List ℚ → List Char) (silence_timeout listen_timeout start : ℚ)
        (frames : List Frame) (audio : List ℚ),
        record_utterance silence_timeout listen_timeout start frames = some audio →
        audio.length < 1600 →
        listen_and_transcribe transcribeF silence_timeout listen_timeout start frames
          = none) := by
  constructor
  · intro F sil lt start frames h
    have hrec : record_utterance sil lt start frames = none := by
      unfold record_utterance
      rw [recordLoop_no_speech frames h]
      rfl
    unfold listen_and_transcribe
    rw [hrec]
  · intro F sil lt start frames audio hrec hshort
    unfold listen_and_transcribe
    rw [hrec]
    show (if audio.length < 1600 then none
          else
            let text := pyStrip (F audio)
            if text = [] then none else some text) = none
    rw [if_pos hshort]

/-- Witness for C7: an all-silence frame schedule and a collaborator that
would return nonempty text is never consulted. -/
theorem listen_timeout_returns_none_witness :
    listen_and_transcribe (fun _ => ['h', 'i']) (3/2) 10 0
      [⟨0, 0, [0]⟩, ⟨1, 1/4, [0]⟩, ⟨2, 0, [0]⟩] = none := by
  exact listen_timeout_returns_none.1 (fun _ => ['h', 'i']) (3/2) 10 0
    [⟨0, 0, [0]⟩, ⟨1, 1/4, [0]⟩, ⟨2, 0, [0]⟩]
    (by
      intro f hf _
      simp only [List.mem_cons, List.not_mem_nil, or_false] at hf
      rcases hf with h | h | h <;> rw [h] <;> norm_num)

/-! ## Response-truncation lemmas (C8) -/

theorem rsplitSpaceHead_no_space {l : List Char} (h : ' ' ∉ l) :
    rsplitSpaceHead l = l := by
  unfold rsplitSpaceHead
  have hdw : l.reverse.dropWhile (fun c => !(c == ' ')) = [] := by
    rw [List.dropWhile_eq_nil_iff]
    intro x hx
    simp only [Bool.not_eq_true', beq_eq_false_iff_ne, ne_eq]
    intro hc
    exact h (hc ▸ List.mem_reverse.mp hx)
  rw [hdw]

theorem dropWhile_head_false {α : Type} (p : α → Bool) :
    ∀ (l : List α) (c : α) (r : List α), l.dropWhile p = c :: r → p c = false := by
  intro l
  induction l with
  | nil => intro c r h; cases h
  | cons x xs ih =>
    intro c r h
    by_cases hx : p x = true
    · rw [List.dropWhile_cons_of_pos hx] at h
      exact ih c r h
    · rw [List.dropWhile_cons_of_neg hx] at h
      cases h
      simpa using hx

theorem rsplitSpaceHead_space {l : List Char} (h : ' ' ∈ l) :
    ∃ k, k < l.length ∧ rsplitSpaceHead l = l.take k ∧ l[k]? = some ' ' ∧
      ∀ j, k < j → j < l.length → l[j]? ≠ some ' ' := by
  have hne : l.reverse.dropWhile (fun c => !(c == ' ')) ≠ [] := by
    rw [ne_eq, List.dropWhile_eq_nil_iff]
    intro hall
    have := hall ' ' (List.mem_reverse.mpr h)
    simp at this
  match hdw : l.reverse.dropWhile (fun c => !(c == ' ')), hne with
  | c0 :: front, _ =>
    have hc0 : c0 = ' ' := by
      have := dropWhile_head_false _ _ _ _ hdw
      simpa using this
    subst hc0
    have hsplit : l.reverse = l.reverse.takeWhile (fun c => !(c == ' ')) ++ ' ' :: front := by
      rw [← hdw]
      exact (List.takeWhile_append_dropWhile _ _).symm
    have hl : l = front.reverse ++ ' ' ::
        (l.reverse.takeWhile (fun c => !(c == ' '))).reverse := by
      have h2 := congrArg List.reverse hsplit
      simpa [List.reverse_append] using h2
    refine ⟨front.reverse.length, ?_, ?_, ?_, ?_⟩
    · conv_rhs => rw [hl]
      simp only [List.length_append, List.length_cons]
      omega
    · unfold rsplitSpaceHead
      rw [hdw]
      conv_rhs => rw [hl]
      exact (List.take_left _ _).symm
    · conv_lhs => rw [hl]
      rw [List.getElem?_append_right (le_refl _)]
      simp
    · intro j hj hjlen
      rw [hl] at hjlen ⊢
      rw [List.getElem?_append_right (by omega)]
      intro hc
      have hjk : j - front.reverse.length = (j - front.reverse.length - 1) + 1 := by
        omega
      rw [hjk] at hc
      simp only [List.getElem?_cons_succ] at hc
      have hmem : ' ' ∈ (l.reverse.takeWhile (fun c => !(c == ' '))).reverse := by
        obtain ⟨hlt, he⟩ := List.getElem?_eq_some.mp hc
        have hm := List.getElem_mem hlt
        rw [he] at hm
        exact hm
      have := List.mem_takeWhile_imp (List.mem_reverse.mp hmem)
      simp at this

/-- **C8 (amended).** The classification gate truncates oversized
responses; when the first 500 characters contain a space the cut is at
the last such space (so it never splits inside a word); when they contain
no space, the cut is at exactly 500 characters. -/
theorem truncate_narration_boundary :
    ∀ result : List Char, 500 < result.length →
      ((' ' ∈ result.take 500) →
        ∃ k, k < 500 ∧
          truncate_narration result = result.take k ++ ['.', '.', '.'] ∧
          result[k]? = some ' ' ∧
          ∀ j, k < j → j < 500 → result[j]? ≠ some ' ') ∧
      ((' ' ∉ result.take 500) →
        truncate_narration result = result.take 500 ++ ['.', '.', '.']) := by
  intro result hlen
  have htk : (result.take 500).length = 500 := by
    simp only [List.length_take]
    omega
  constructor
  · intro hsp
    obtain ⟨k, hk, hhead, hget, hmax⟩ := rsplitSpaceHead_space hsp
    rw [htk] at hk
    refine ⟨k, hk, ?_, ?_, ?_⟩
    · unfold truncate_narration
      rw [if_pos hlen, hhead, List.take_take]
      congr 2
      omega
    · rw [List.getElem?_take, if_pos hk] at hget
      exact hget
    · intro j h1 h2
      have h3 := hmax j h1 (by omega)
      rw [List.getElem?_take, if_pos h2] at h3
      exact h3
  · intro hnsp
    unfold truncate_narration
    rw [if_pos hlen, rsplitSpaceHead_no_space hnsp]

/-- Evaluation of the truncation at a 501-character single "word". -/
theorem truncate_replicate_501 :
    truncate_narration (List.replicate 501 'a') =
      List.replicate 500 'a' ++ ['.', '.', '.'] := by
  unfold truncate_narration
  rw [if_pos (by rw [List.length_replicate]; norm_num)]
  rw [List.take_replicate]
  have hm : (500 : ℕ) ⊓ 501 = 500 := by norm_num
  rw [hm]
  rw [rsplitSpaceHead_no_space (by
    intro hmem
    rw [List.mem_replicate] at hmem
    exact absurd hmem.2 (by decide))]

/-- **C8 (counterexample).** The claim "the classification gate never
truncates at a point that splits inside a word" is false as stated: a
response of 501 non-space characters is cut after character 500 with
non-space characters on both sides of the cut. -/
theorem truncate_narration_midword_counterexample :
    ¬ (∀ result : List Char, 500 < result.length →
        ∃ k, truncate_narration result = result.take k ++ ['.', '.', '.'] ∧
          (k = 0 ∨ (∃ c, result[k]? = some c ∧ isPySpace c = true) ∨
            (∃ c, result[k - 1]? = some c ∧ isPySpace c = true))) := by
  intro hclaim
  obtain ⟨k, hk, hbound⟩ := hclaim (List.replicate 501 'a')
    (by rw [List.length_replicate]; norm_num)
  rw [truncate_replicate_501] at hk
  have hlen := congrArg List.length hk
  simp only [List.length_append, List.length_replicate, List.length_take,
    List.length_cons, List.length_nil] at hlen
  have hkeq : k = 500 := by
    rcases Nat.le_total k 501 with hc | hc
    · rw [Nat.min_eq_left hc] at hlen
      omega
    · rw [Nat.min_eq_right hc] at hlen
      omega
  subst hkeq
  rcases hbound with h0 | ⟨c, hc, hsp⟩ | ⟨c, hc, hsp⟩
  · cases h0
  · rw [List.getElem?_replicate, if_pos (by norm_num)] at hc
    cases hc
    exact absurd hsp (by decide)
  · rw [List.getElem?_replicate, if_pos (by norm_num)] at hc
    cases hc
    exact absurd hsp (by decide)

/-- Witness for the amended C8 at a concrete 501-character response
containing a space. -/
theorem truncate_narration_boundary_witness :
    ∃ k, k < 500 ∧
      truncate_narration (List.replicate 10 'a' ++ ' ' :: List.replicate 490 'b')
        = (List.replicate 10 'a' ++ ' ' :: List.replicate 490 'b').take k
            ++ ['.', '.', '.'] ∧
      (List.replicate 10 'a' ++ ' ' :: List.replicate 490 'b')[k]? = some ' ' ∧
      ∀ j, k < j → j < 500 →
        (List.replicate 10 'a' ++ ' ' :: List.replicate 490 'b')[j]? ≠ some ' ' := by
  exact (truncate_narration_boundary
    (List.replicate 10 'a' ++ ' ' :: List.replicate 490 'b')
    (by
      rw [List.length_append, List.length_cons, List.length_replicate,
        List.length_replicate]
      norm_num)).1
    (by
      rw [List.take_append_eq_append_take]
      refine List.mem_append.mpr (Or.inr ?_)
      have h10 : (List.replicate 10 'a').length = 10 := List.length_replicate 10 'a'
      rw [h10]
      have h490 : (500 : ℕ) - 10 = 489 + 1 := by norm_num
      rw [h490, List.take_succ_cons]
      exact List.mem_cons_self ' ' _)

/-! ## Delta-extractor theorems (C1, C6) -/

theorem consLine_ne_nil (c : Char) (M : List (List Char)) : consLine c M ≠ [] := by
  cases M <;> simp [consLine]

theorem pySplitlines_nil_iff (l : List Char) : pySplitlines l = [] ↔ l = [] := by
  cases l with
  | nil => simp [pySplitlines, pySplitlinesAux]
  | cons c rest =>
    simp only [pySplitlines, pySplitlinesAux]
    constructor
    · intro h
      exfalso
      split at h
      · split at h
        · rename_i hflag
          exact absurd hflag (by simp)
        · cases h
      · split at h
        · cases h
        · exact consLine_ne_nil c _ h
    · intro h
      cases h

theorem anchorDeltaSpecGo_self :
    ∀ (ks : List Nat) (prev : List (List Char)),
      (∃ k ∈ ks, 1 ≤ k ∧ k ≤ prev.length) →
      anchorDeltaSpecGo prev prev ks = some none := by
  intro ks
  induction ks with
  | nil =>
    intro prev hex
    obtain ⟨k, hk, _⟩ := hex
    cases hk
  | cons k ks ih =>
    intro prev hex
    rw [anchorDeltaSpecGo]
    by_cases hlt : prev.length < k
    · rw [if_pos hlt]
      apply ih
      obtain ⟨k2, hk2mem, hk2a, hk2b⟩ := hex
      rcases List.mem_cons.mp hk2mem with heq | hmem
      · subst heq
        omega
      · exact ⟨k2, hmem, hk2a, hk2b⟩
    · rw [if_neg hlt]
      have hkle : k ≤ prev.length := by omega
      have hanc : (prev.drop (prev.length - k)).length = k := by
        rw [List.length_drop]
        omega
      have h1 : (prev.length - k) + k ≤ prev.length := by omega
      have h2 : (prev.drop (prev.length - k)).take k = prev.drop (prev.length - k) :=
        List.take_of_length_le (le_of_eq hanc)
      have hocc : specOcc prev k (prev.drop (prev.length - k)) (prev.length - k) :=
        ⟨h1, h2⟩
      have hfg : Nat.findGreatest (specOcc prev k (prev.drop (prev.length - k)))
          prev.length = prev.length - k := by
        have h1 := Nat.le_findGreatest (P := specOcc prev k (prev.drop (prev.length - k)))
          (m := prev.length - k) (n := prev.length) (by omega) hocc
        have h2 := Nat.findGreatest_spec (P := specOcc prev k (prev.drop (prev.length - k)))
          (m := prev.length - k) (n := prev.length) (by omega) hocc
        have h3 := h2.1
        omega
      unfold specLatestOcc
      rw [hfg, if_pos hocc]
      have hdrop : prev.drop ((prev.length - k) + k) = [] :=
        List.drop_eq_nil_of_le (by omega)
      show some (if pyStrip (joinNL (prev.drop ((prev.length - k) + k))) = [] then none
                 else some (pyStrip (joinNL (prev.drop ((prev.length - k) + k)))))
        = some none
      rw [hdrop]
      rfl

theorem anchorLoop_of_specGo :
    ∀ (ks : List Nat) (prev cur : List (List Char)) (r : Option (List Char)),
      (∀ k ∈ ks, 1 ≤ k) →
      anchorDeltaSpecGo prev cur ks = some r →
      ∃ nl, anchorLoop prev cur ks = some nl ∧ joinStripOpt nl = r := by
  intro ks
  induction ks with
  | nil =>
    intro prev cur r _ h
    cases h
  | cons k ks ih =>
    intro prev cur r hpos h
    rw [anchorDeltaSpecGo] at h
    rw [anchorLoop]
    by_cases hlt : prev.length < k
    · rw [if_pos hlt] at h ⊢
      exact ih prev cur r (fun k2 hk2 => hpos k2 (List.mem_cons_of_mem k hk2)) h
    · rw [if_neg hlt] at h ⊢
      have hk1 : 1 ≤ k := hpos k (List.mem_cons_self k ks)
      have hanc : (prev.drop (prev.length - k)).length = k := by
        rw [List.length_drop]
        omega
      rw [findAnchorIdx_eq_specLatestOcc hanc hk1]
      cases hspec : specLatestOcc cur k (prev.drop (prev.length - k)) with
      | none =>
        rw [hspec] at h
        exact ih prev cur r (fun k2 hk2 => hpos k2 (List.mem_cons_of_mem k hk2)) h
      | some i =>
        rw [hspec] at h
        cases h
        exact ⟨cur.drop (i + k), rfl, rfl⟩

/-- **C1.** Whenever the spec's anchor procedure (largest-first sizes
`[5,3,2,1]`, anchor = last `k` lines of the previous snapshot, most recent
occurrence in the current snapshot, remainder trimmed or `None` when
empty) yields a verdict, `get_new_output` returns exactly that verdict;
and the spec's two concrete examples hold. -/
theorem get_new_output_anchor_spec :
    (∀ (current previous : List Char) (r : Option (List Char)),
        anchorDeltaSpec (pySplitlines previous) (pySplitlines current) = some r →
        get_new_output current previous = r) ∧
    get_new_output ['a', '\n', 'b', '\n', 'c', '\n', 'd', '\n', 'e']
      ['a', '\n', 'b', '\n', 'c'] = some ['d', '\n', 'e'] ∧
    get_new_output ['a', '\n', 'b', '\n', 'c', '\n', 'd']
      ['x', '\n', 'a', '\n', 'b', '\n', 'c'] = some ['d'] := by
  refine ⟨?_, by decide, by decide⟩
  intro current previous r h
  unfold get_new_output
  by_cases hp : previous = []
  · exfalso
    subst hp
    rw [show pySplitlines ([] : List Char) = [] from rfl] at h
    rw [show anchorDeltaSpec [] (pySplitlines current) = none from rfl] at h
    cases h
  · rw [if_neg hp]
    by_cases heq : pySplitlines previous = pySplitlines current
    · have hne : pySplitlines previous ≠ [] := by
        rw [Ne, pySplitlines_nil_iff]
        exact hp
      have hlen1 : 1 ≤ (pySplitlines current).length := by
        rw [← heq]
        exact List.length_pos.mpr hne
      unfold anchorDeltaSpec at h
      rw [heq] at h
      rw [anchorDeltaSpecGo_self [5, 3, 2, 1] (pySplitlines current)
        ⟨1, by norm_num, by norm_num, hlen1⟩] at h
      cases h
      exact if_pos heq
    · unfold anchorDeltaSpec at h
      obtain ⟨nl, hloop, hjoin⟩ := anchorLoop_of_specGo [5, 3, 2, 1]
        (pySplitlines previous) (pySplitlines current) r (by norm_num) h
      show (if pySplitlines previous = pySplitlines current then none
            else
              match anchorLoop (pySplitlines previous) (pySplitlines current)
                  [5, 3, 2, 1] with
              | some newLines => joinStripOpt newLines
              | none =>
                if (pySplitlines previous).length < (pySplitlines current).length then
                  joinStripOpt ((pySplitlines current).drop
                    (pySplitlines previous).length)
                else
                  joinStripOpt ((pySplitlines current).drop
                    ((pySplitlines current).length -
                      min 20 (pySplitlines current).length))) = r
      rw [if_neg heq, hloop]
      exact hjoin

/-- Witness for C1's refinement component at a concrete anchored pair. -/
theorem get_new_output_anchor_spec_witness :
    get_new_output ['a', '\n', 'b'] ['a'] = some ['b'] := by
  exact get_new_output_anchor_spec.1 ['a', '\n', 'b'] ['a'] (some ['b']) (by decide)

/-- **C6 (amended).** `get_new_output` returns `None` in both base cases:
with no previous snapshot, and whenever the two snapshots are
line-identical (it can also return `None` in further cases, e.g. when the
anchored remainder is empty, so these two are not the only `None` cases). -/
theorem get_new_output_none_base_cases :
    ∀ current previous : List Char,
      previous = [] ∨ pySplitlines previous = pySplitlines current →
      get_new_output current previous = none := by
  intro current previous h
  unfold get_new_output
  rcases h with h | h
  · rw [if_pos h]
  · by_cases hp : previous = []
    · rw [if_pos hp]
    · rw [if_neg hp]
      exact if_pos h

/-- Witness for the amended C6 on both base cases. -/
theorem get_new_output_none_base_cases_witness :
    get_new_output ['a'] [] = none ∧
    get_new_output ['a', '\n', 'b'] ['a', '\n', 'b'] = none := by
  exact ⟨get_new_output_none_base_cases ['a'] [] (Or.inl rfl),
    get_new_output_none_base_cases ['a', '\n', 'b'] ['a', '\n', 'b'] (Or.inr rfl)⟩

/-- **C6 (counterexample).** The claim's "in exactly the two base cases"
is false: with previous `"a\nx"` and current `"x"` the extractor returns
`None` (anchor `["x"]` matches with empty remainder) although a previous
snapshot exists and the snapshots are not line-identical. -/
theorem get_new_output_none_not_only_base_cases :
    ¬ (∀ current previous : List Char,
        get_new_output current previous = none ↔
          (previous = [] ∨ pySplitlines previous = pySplitlines current)) := by
  intro hclaim
  exact absurd ((hclaim ['x'] ['a', '\n', 'x']).mp (by decide)) (by decide)

/-! ## Identity lemmas for `strip_ansi` (C4, C9) -/

/-- No two adjacent spaces. -/
def noDbl (l : List Char) : Prop :=
  l.Chain' (fun a b => ¬(a = ' ' ∧ b = ' '))

theorem stripAnsiEsc_id : ∀ l : List Char, '\x1b' ∉ l → stripAnsiEsc l = l := by
  intro l
  induction l with
  | nil => intro _; rw [stripAnsiEsc]
  | cons c rest ih =>
    intro h
    rw [stripAnsiEsc]
    rw [if_neg (by
      intro hc
      exact h (hc ▸ List.mem_cons_self c rest))]
    rw [ih (fun hm => h (List.mem_cons_of_mem c hm))]

theorem removeCtrl_id {l : List Char} (h : ∀ c ∈ l, isCtrl c = false) :
    removeCtrl l = l := by
  unfold removeCtrl
  rw [List.filter_eq_self]
  intro a ha
  rw [h a ha]
  rfl

theorem subNoiseAux_id {l : List Char} (h : ∀ c ∈ l, isUniNoise c = false) :
    ∀ b, subNoiseAux b l = l := by
  induction l with
  | nil => intro b; rfl
  | cons c rest ih =>
    intro b
    rw [subNoiseAux]
    rw [if_neg (by
      rw [h c (List.mem_cons_self c rest)]
      simp)]
    rw [ih (fun d hd => h d (List.mem_cons_of_mem c hd)) false]

theorem collapseAux_id :
    ∀ l : List Char, noDbl l →
      collapseAux false l = l ∧ (l.head? ≠ some ' ' → collapseAux true l = l) := by
  intro l
  induction l with
  | nil => exact fun _ => ⟨rfl, fun _ => rfl⟩
  | cons c rest ih =>
    intro h
    have hrel := (List.chain'_cons'.mp h).1
    have htail : noDbl rest := (List.chain'_cons'.mp h).2
    obtain ⟨ih1, ih2⟩ := ih htail
    have hhead : c = ' ' → rest.head? ≠ some ' ' := by
      intro hc hh2
      exact hrel ' ' (by rw [hh2]; rfl) ⟨hc, rfl⟩
    constructor
    · rw [collapseAux]
      by_cases hc : c = ' '
      · rw [if_pos hc, if_neg (by simp)]
        rw [ih2 (hhead hc), hc]
      · rw [if_neg hc, ih1]
    · intro hne
      rw [collapseAux]
      rw [if_neg (by
        intro hc
        exact hne (by rw [hc]; rfl))]
      rw [ih1]

theorem strip_ansi_id {l : List Char}
    (hctrl : ∀ c ∈ l, isCtrl c = false)
    (hnoise : ∀ c ∈ l, isUniNoise c = false)
    (hdbl : noDbl l) : strip_ansi l = l := by
  unfold strip_ansi subNoise collapseSpaces
  have hesc : '\x1b' ∉ l := by
    intro hm
    have := hctrl _ hm
    simp [isCtrl] at this
  rw [stripAnsiEsc_id l hesc, removeCtrl_id hctrl, subNoiseAux_id hnoise false,
    (collapseAux_id l hdbl).1]

/-! ## Noise-filter line policy (C9) -/

theorem cleanLines_eq_filter :
    ∀ M : List (List Char),
      cleanLines M = (M.map pyStrip).filter (fun s => !(s.isEmpty || isNoise s)) := by
  intro M
  induction M with
  | nil => rfl
  | cons line rest ih =>
    show (if pyStrip line = [] then cleanLines rest
          else if isNoise (pyStrip line) then cleanLines rest
          else pyStrip line :: cleanLines rest) = _
    rw [List.map_cons, List.filter_cons]
    by_cases h1 : pyStrip line = []
    · rw [if_pos h1]
      rw [if_neg (by simp [h1])]
      exact ih
    · rw [if_neg h1]
      by_cases h2 : isNoise (pyStrip line) = true
      · rw [if_pos h2]
        rw [if_neg (by simp [h2])]
        exact ih
      · rw [if_neg h2]
        rw [if_pos (by
          simp only [Bool.not_eq_true] at h2
          simp [h2, List.isEmpty_iff, h1])]
        rw [ih]

/-- **C9 (amended).** The per-line policy of `clean_terminal_output`: the
kept lines are exactly the whitespace-stripped input lines that are
nonempty and match no noise pattern — each line is kept or dropped as a
whole (never partially redacted by the patterns), the patterns act
independently per line, and "matches ANY pattern" is order-insensitive
(`any` is exactly existential over the pattern list). -/
theorem clean_line_policy :
    (∀ x : List Char,
        cleanLines (pySplitlines (strip_ansi x)) =
          ((pySplitlines (strip_ansi x)).map pyStrip).filter
            (fun s => !(s.isEmpty || isNoise s)) ∧
        clean_terminal_output x =
          joinNL (((pySplitlines (strip_ansi x)).map pyStrip).filter
            (fun s => !(s.isEmpty || isNoise s)))) ∧
    (∀ s : List Char, isNoise s = true ↔ ∃ p ∈ NOISE_PATTERNS, p s = true) := by
  constructor
  · intro x
    refine ⟨cleanLines_eq_filter _, ?_⟩
    unfold clean_terminal_output
    rw [cleanLines_eq_filter]
  · intro s
    unfold isNoise
    rw [List.any_eq_true]

/-- **C9 (counterexample).** "No line is ever partially redacted beyond
the removal of control/escape sequences" is false as stated: kept lines
are additionally stripped of leading/trailing whitespace, so for the
input `" a"` (no control or escape sequences at all) the kept line `"a"`
is not one of the input's lines. -/
theorem clean_line_policy_counterexample :
    ¬ (∀ x : List Char, ∀ line ∈ pySplitlines (clean_terminal_output x),
        line ∈ pySplitlines (strip_ansi x)) := by
  intro hclaim
  have h0 : strip_ansi [' ', 'a'] = [' ', 'a'] := by
    show collapseSpaces (subNoise (removeCtrl (stripAnsiEsc [' ', 'a']))) = _
    rw [stripAnsiEsc_id [' ', 'a'] (by decide)]
    decide
  have h := hclaim [' ', 'a'] ['a'] (by
    show ['a'] ∈ pySplitlines (joinNL (cleanLines (pySplitlines (strip_ansi [' ', 'a']))))
    rw [h0]
    decide)
  rw [h0] at h
  revert h
  decide

/-! ## Character inventories of the `strip_ansi` stages (C4) -/

theorem mem_subNoiseAux :
    ∀ (l : List Char) (b : Bool) (c : Char),
      c ∈ subNoiseAux b l → c ∈ l ∨ c = ' ' := by
  intro l
  induction l with
  | nil => intro b c h; cases h
  | cons d rest ih =>
    intro b c h
    rw [subNoiseAux] at h
    split at h
    · split at h
      · rcases ih true c h with h2 | h2
        · exact Or.inl (List.mem_cons_of_mem d h2)
        · exact Or.inr h2
      · rcases List.mem_cons.mp h with h2 | h2
        · exact Or.inr h2
        · rcases ih true c h2 with h3 | h3
          · exact Or.inl (List.mem_cons_of_mem d h3)
          · exact Or.inr h3
    · rcases List.mem_cons.mp h with h2 | h2
      · exact Or.inl (h2 ▸ List.mem_cons_self d rest)
      · rcases ih false c h2 with h3 | h3
        · exact Or.inl (List.mem_cons_of_mem d h3)
        · exact Or.inr h3

theorem subNoiseAux_noise_free :
    ∀ (l : List Char) (b : Bool) (c : Char),
      c ∈ subNoiseAux b l → isUniNoise c = false := by
  intro l
  induction l with
  | nil => intro b c h; cases h
  | cons d rest ih =>
    intro b c h
    rw [subNoiseAux] at h
    split at h
    · split at h
      · exact ih true c h
      · rcases List.mem_cons.mp h with h2 | h2
        · rw [h2]; decide
        · exact ih true c h2
    · rename_i hd
      rcases List.mem_cons.mp h with h2 | h2
      · rw [h2]
        simpa using hd
      · exact ih false c h2

theorem mem_collapseAux :
    ∀ (l : List Char) (b : Bool) (c : Char),
      c ∈ collapseAux b l → c ∈ l ∨ c = ' ' := by
  intro l
  induction l with
  | nil => intro b c h; cases h
  | cons d rest ih =>
    intro b c h
    rw [collapseAux] at h
    split at h
    · split at h
      · rcases ih true c h with h2 | h2
        · exact Or.inl (List.mem_cons_of_mem d h2)
        · exact Or.inr h2
      · rcases List.mem_cons.mp h with h2 | h2
        · exact Or.inr h2
        · rcases ih true c h2 with h3 | h3
          · exact Or.inl (List.mem_cons_of_mem d h3)
          · exact Or.inr h3
    · rcases List.mem_cons.mp h with h2 | h2
      · exact Or.inl (h2 ▸ List.mem_cons_self d rest)
      · rcases ih false c h2 with h3 | h3
        · exact Or.inl (List.mem_cons_of_mem d h3)
        · exact Or.inr h3

theorem collapseAux_head_not_space :
    ∀ l : List Char, (collapseAux true l).head? ≠ some ' ' := by
  intro l
  induction l with
  | nil => simp [collapseAux]
  | cons d rest ih =>
    rw [collapseAux]
    by_cases hd : d = ' '
    · rw [if_pos hd, if_pos rfl]
      exact ih
    · rw [if_neg hd]
      intro hc
      simp only [List.head?_cons, Option.some.injEq] at hc
      exact hd hc

theorem collapseAux_noDbl :
    ∀ (l : List Char) (b : Bool), noDbl (collapseAux b l) := by
  intro l
  induction l with
  | nil => intro b; exact List.chain'_nil
  | cons d rest ih =>
    intro b
    rw [collapseAux]
    by_cases hd : d = ' '
    · rw [if_pos hd]
      by_cases hb : b = true
      · rw [if_pos hb]
        exact ih true
      · rw [if_neg hb]
        refine List.chain'_cons'.mpr ⟨?_, ih true⟩
        intro y hy hcon
        exact collapseAux_head_not_space rest (hcon.2 ▸ hy)
    · rw [if_neg hd]
      refine List.chain'_cons'.mpr ⟨?_, ih false⟩
      intro y hy hcon
      exact hd hcon.1

/-! ## `pySplitlines` structure lemmas (C4) -/

theorem mem_consLine {line : List Char} {c : Char} {M : List (List Char)}
    (h : line ∈ consLine c M) :
    (M = [] ∧ line = [c]) ∨
    (∃ m ms, M = m :: ms ∧ (line = c :: m ∨ line ∈ ms)) := by
  cases M with
  | nil =>
    simp only [consLine, List.mem_singleton] at h
    exact Or.inl ⟨rfl, h⟩
  | cons m ms =>
    simp only [consLine, List.mem_cons] at h
    exact Or.inr ⟨m, ms, rfl, h⟩

theorem pySplitlinesAux_line_chars :
    ∀ (l : List Char) (b : Bool) (line : List Char), line ∈ pySplitlinesAux b l →
      ∀ c ∈ line, c ∈ l ∧ isLineSep c = false := by
  intro l
  induction l with
  | nil => intro b line h; cases h
  | cons d rest ih =>
    intro b line h c hc
    rw [pySplitlinesAux] at h
    split at h
    · split at h
      · have := ih false line h c hc
        exact ⟨List.mem_cons_of_mem d this.1, this.2⟩
      · rcases List.mem_cons.mp h with h2 | h2
        · subst h2; cases hc
        · have := ih false line h2 c hc
          exact ⟨List.mem_cons_of_mem d this.1, this.2⟩
    · split at h
      · rcases List.mem_cons.mp h with h2 | h2
        · subst h2; cases hc
        · have := ih _ line h2 c hc
          exact ⟨List.mem_cons_of_mem d this.1, this.2⟩
      · rename_i hnl hsep
        rcases mem_consLine h with ⟨hM, hline⟩ | ⟨m, ms, hM, hline⟩
        · subst hline
          rcases List.mem_singleton.mp hc with rfl
          refine ⟨List.mem_cons_self c rest, ?_⟩
          simpa using hsep
        · rcases hline with hline | hline
          · subst hline
            rcases List.mem_cons.mp hc with rfl | hc2
            · refine ⟨List.mem_cons_self c rest, by simpa using hsep⟩
            · have := ih false m (by rw [hM]; exact List.mem_cons_self _ _) c hc2
              exact ⟨List.mem_cons_of_mem d this.1, this.2⟩
          · have := ih false line (by rw [hM]; exact List.mem_cons_of_mem m hline) c hc
            exact ⟨List.mem_cons_of_mem d this.1, this.2⟩

theorem pySplitlinesAux_first_head :
    ∀ (l : List Char) (m : List Char) (ms : List (List Char)),
      pySplitlinesAux false l = m :: ms → m = [] ∨ m.head? = l.head? := by
  intro l m ms h
  cases l with
  | nil => cases h
  | cons d rest =>
    rw [pySplitlinesAux] at h
    split at h
    · split at h
      · rename_i hflag
        exact absurd hflag (by simp)
      · cases h
        exact Or.inl rfl
    · split at h
      · cases h
        exact Or.inl rfl
      · cases hM : pySplitlinesAux false rest with
        | nil =>
          rw [hM] at h
          simp only [consLine] at h
          cases h
          exact Or.inr rfl
        | cons m0 ms0 =>
          rw [hM] at h
          simp only [consLine] at h
          cases h
          exact Or.inr rfl

theorem pySplitlinesAux_noDbl :
    ∀ (l : List Char) (b : Bool), noDbl l →
      ∀ line ∈ pySplitlinesAux b l, noDbl line := by
  intro l
  induction l with
  | nil => intro b _ line h; cases h
  | cons d rest ih =>
    intro b hdbl line h
    have htail : noDbl rest := (List.chain'_cons'.mp hdbl).2
    have hrel := (List.chain'_cons'.mp hdbl).1
    rw [pySplitlinesAux] at h
    split at h
    · split at h
      · exact ih false htail line h
      · rcases List.mem_cons.mp h with h2 | h2
        · subst h2; exact List.chain'_nil
        · exact ih false htail line h2
    · split at h
      · rcases List.mem_cons.mp h with h2 | h2
        · subst h2; exact List.chain'_nil
        · exact ih _ htail line h2
      · rcases mem_consLine h with ⟨hM, hline⟩ | ⟨m, ms, hM, hline⟩
        · subst hline
          exact List.chain'_singleton d
        · rcases hline with hline | hline
          · subst hline
            have hm : noDbl m := ih false htail m (by rw [hM]; exact List.mem_cons_self _ _)
            refine List.chain'_cons'.mpr ⟨?_, hm⟩
            intro y hy hcon
            rcases pySplitlinesAux_first_head rest m ms hM with hnil | hhead
            · subst hnil; cases hy
            · have hyr : rest.head? = some y := by rw [← hhead]; exact hy
              cases rest with
              | nil => cases hyr
              | cons r0 rr =>
                simp only [List.head?_cons, Option.some.injEq] at hyr
                subst hyr
                exact hrel _ rfl hcon
          · exact ih false htail line (by rw [hM]; exact List.mem_cons_of_mem m hline)

theorem pySplitlinesAux_no_sep :
    ∀ (l : List Char) (b : Bool), l ≠ [] → (∀ c ∈ l, isLineSep c = false) →
      pySplitlinesAux b l = [l] := by
  intro l
  induction l with
  | nil => intro b h _; exact absurd rfl h
  | cons d rest ih =>
    intro b _ hsep
    have hd : isLineSep d = false := hsep d (List.mem_cons_self d rest)
    rw [pySplitlinesAux]
    rw [if_neg (by
      intro hc
      rw [hc] at hd
      simp [isLineSep] at hd)]
    rw [if_neg (by rw [hd]; simp)]
    cases rest with
    | nil => rfl
    | cons r0 rr =>
      rw [ih false (by simp) (fun c hc => hsep c (List.mem_cons_of_mem d hc))]
      rfl

theorem pySplitlinesAux_append_newline :
    ∀ (s t : List Char), (∀ c ∈ s, isLineSep c = false) →
      pySplitlinesAux false (s ++ '\n' :: t) = s :: pySplitlinesAux false t := by
  intro s
  induction s with
  | nil =>
    intro t _
    rw [List.nil_append, pySplitlinesAux]
    rw [if_pos rfl]
    rw [if_neg (by simp)]
  | cons d s2 ih =>
    intro t hsep
    have hd : isLineSep d = false := hsep d (List.mem_cons_self d s2)
    rw [List.cons_append, pySplitlinesAux]
    rw [if_neg (by
      intro hc
      rw [hc] at hd
      simp [isLineSep] at hd)]
    rw [if_neg (by rw [hd]; simp)]
    rw [ih t (fun c hc => hsep c (List.mem_cons_of_mem d hc))]
    rfl

/-- Round trip: splitting a `"\n"`-join of nonempty, separator-free lines
recovers exactly those lines. -/
theorem pySplitlines_joinNL :
    ∀ L : List (List Char),
      (∀ s ∈ L, s ≠ [] ∧ ∀ c ∈ s, isLineSep c = false) →
      pySplitlines (joinNL L) = L := by
  intro L
  induction L with
  | nil => intro _; rfl
  | cons s rest ih =>
    intro h
    obtain ⟨hs1, hs2⟩ := h s (List.mem_cons_self s rest)
    cases rest with
    | nil =>
      show pySplitlinesAux false s = [s]
      exact pySplitlinesAux_no_sep s false hs1 hs2
    | cons s2 rest2 =>
      show pySplitlinesAux false (s ++ '\n' :: joinNL (s2 :: rest2)) = _
      rw [pySplitlinesAux_append_newline s _ hs2]
      rw [show pySplitlinesAux false (joinNL (s2 :: rest2)) =
            pySplitlines (joinNL (s2 :: rest2)) from rfl]
      rw [ih (fun s3 h3 => h s3 (List.mem_cons_of_mem s h3))]

/-! ## `pyStrip` lemmas (C4) -/

theorem mem_pyStrip {l : List Char} {c : Char} (h : c ∈ pyStrip l) : c ∈ l := by
  unfold pyStrip at h
  rw [List.mem_reverse] at h
  have h2 := (List.dropWhile_sublist _).mem h
  rw [List.mem_reverse] at h2
  exact (List.dropWhile_sublist _).mem h2

theorem pyStrip_head_not_space {l : List Char} {c : Char}
    (h : (pyStrip l).head? = some c) : isPySpace c = false := by
  unfold pyStrip at h
  rw [List.head?_reverse] at h
  -- `h` : getLast? of the second dropWhile is `some c`
  have hsuffix := List.dropWhile_suffix (l := (l.dropWhile isPySpace).reverse) isPySpace
  obtain ⟨t, ht⟩ := hsuffix
  cases hm : (l.dropWhile isPySpace).reverse.dropWhile isPySpace with
  | nil => rw [hm] at h; cases h
  | cons m0 mr =>
    rw [hm] at h ht
    have hlast : (l.dropWhile isPySpace).reverse.getLast? = some c := by
      rw [← ht, List.getLast?_append]
      rw [← hm] at h ⊢
      rw [h]
      rfl
    rw [List.getLast?_reverse] at hlast
    cases hd : l.dropWhile isPySpace with
    | nil => rw [hd] at hlast; cases hlast
    | cons d0 dr =>
      rw [hd] at hlast
      simp only [List.head?_cons, Option.some.injEq] at hlast
      subst hlast
      exact dropWhile_head_false isPySpace l _ dr hd

theorem pyStrip_getLast_not_space {l : List Char} {c : Char}
    (h : (pyStrip l).getLast? = some c) : isPySpace c = false := by
  unfold pyStrip at h
  rw [List.getLast?_reverse] at h
  cases hm : (l.dropWhile isPySpace).reverse.dropWhile isPySpace with
  | nil => rw [hm] at h; cases h
  | cons m0 mr =>
    rw [hm] at h
    simp only [List.head?_cons, Option.some.injEq] at h
    subst h
    exact dropWhile_head_false isPySpace _ _ mr hm

theorem pyStrip_id_of_ends {l : List Char}
    (h1 : ∀ c, l.head? = some c → isPySpace c = false)
    (h2 : ∀ c, l.getLast? = some c → isPySpace c = false) :
    pyStrip l = l := by
  unfold pyStrip
  have hdw1 : l.dropWhile isPySpace = l := by
    cases hl : l with
    | nil => rfl
    | cons c rest =>
      exact List.dropWhile_cons_of_neg (by
        rw [h1 c (by rw [hl]; rfl)]
        simp)
  rw [hdw1]
  have hdw2 : l.reverse.dropWhile isPySpace = l.reverse := by
    cases hr : l.reverse with
    | nil => rfl
    | cons c rest =>
      have hlast : l.getLast? = some c := by
        rw [← List.head?_reverse, hr]
        rfl
      exact List.dropWhile_cons_of_neg (by
        rw [h2 c hlast]
        simp)
  rw [hdw2, List.reverse_reverse]

/-- `str.strip()` is idempotent. -/
theorem pyStrip_idem (l : List Char) : pyStrip (pyStrip l) = pyStrip l :=
  pyStrip_id_of_ends (fun _ hc => pyStrip_head_not_space hc)
    (fun _ hc => pyStrip_getLast_not_space hc)

theorem noDbl_reverse {m : List Char} (hm : noDbl m) : noDbl m.reverse := by
  unfold noDbl at hm ⊢
  rw [List.chain'_reverse]
  exact hm.imp (fun a b hab hc => hab ⟨hc.2, hc.1⟩)

theorem pyStrip_noDbl {l : List Char} (h : noDbl l) : noDbl (pyStrip l) := by
  unfold pyStrip
  have s1 : noDbl (l.dropWhile isPySpace) :=
    List.Chain'.suffix h (List.dropWhile_suffix _)
  have s2 := noDbl_reverse s1
  have s3 : noDbl ((l.dropWhile isPySpace).reverse.dropWhile isPySpace) :=
    List.Chain'.suffix s2 (List.dropWhile_suffix _)
  exact noDbl_reverse s3

/-! ## `joinNL` and `cleanLines` lemmas (C4) -/

theorem mem_joinNL :
    ∀ (L : List (List Char)) (c : Char), c ∈ joinNL L →
      c = '\n' ∨ ∃ s ∈ L, c ∈ s := by
  intro L
  induction L with
  | nil => intro c h; cases h
  | cons s rest ih =>
    intro c h
    cases rest with
    | nil =>
      exact Or.inr ⟨s, List.mem_cons_self s [], h⟩
    | cons s2 rest2 =>
      have hshow : joinNL (s :: s2 :: rest2) = s ++ '\n' :: joinNL (s2 :: rest2) := rfl
      rw [hshow] at h
      rcases List.mem_append.mp h with h2 | h2
      · exact Or.inr ⟨s, List.mem_cons_self s _, h2⟩
      · rcases List.mem_cons.mp h2 with h3 | h3
        · exact Or.inl h3
        · rcases ih c h3 with h4 | ⟨s3, hs3, hc3⟩
          · exact Or.inl h4
          · exact Or.inr ⟨s3, List.mem_cons_of_mem s hs3, hc3⟩

theorem noDbl_joinNL :
    ∀ L : List (List Char), (∀ s ∈ L, noDbl s) → noDbl (joinNL L) := by
  intro L
  induction L with
  | nil => intro _; exact List.chain'_nil
  | cons s rest ih =>
    intro h
    cases rest with
    | nil => exact h s (List.mem_cons_self s [])
    | cons s2 rest2 =>
      have hshow : joinNL (s :: s2 :: rest2) = s ++ '\n' :: joinNL (s2 :: rest2) := rfl
      rw [hshow]
      refine List.chain'_append.mpr ⟨h s (List.mem_cons_self s _), ?_, ?_⟩
      · refine List.chain'_cons'.mpr ⟨?_, ih (fun t ht => h t (List.mem_cons_of_mem s ht))⟩
        intro y _ hcon
        exact absurd hcon.1 (by decide)
      · intro a _ y hy hcon
        have hy2 : '\n' = y := by simpa using hy
        rw [← hy2] at hcon
        exact absurd hcon.2 (by decide)

theorem cleanLines_mem :
    ∀ (M : List (List Char)) (s : List Char), s ∈ cleanLines M →
      ∃ line ∈ M, s = pyStrip line ∧ s ≠ [] ∧ isNoise s = false := by
  intro M
  induction M with
  | nil => intro s h; cases h
  | cons line rest ih =>
    intro s h
    have hshow : cleanLines (line :: rest) =
        (if pyStrip line = [] then cleanLines rest
         else if isNoise (pyStrip line) then cleanLines rest
         else pyStrip line :: cleanLines rest) := rfl
    rw [hshow] at h
    by_cases h1 : pyStrip line = []
    · rw [if_pos h1] at h
      obtain ⟨l2, hl2, hp⟩ := ih s h
      exact ⟨l2, List.mem_cons_of_mem line hl2, hp⟩
    · rw [if_neg h1] at h
      by_cases h2 : isNoise (pyStrip line) = true
      · rw [if_pos h2] at h
        obtain ⟨l2, hl2, hp⟩ := ih s h
        exact ⟨l2, List.mem_cons_of_mem line hl2, hp⟩
      · rw [if_neg h2] at h
        rcases List.mem_cons.mp h with h3 | h3
        · subst h3
          exact ⟨line, List.mem_cons_self line rest, rfl, h1,
            Bool.not_eq_true _ ▸ h2⟩
        · obtain ⟨l2, hl2, hp⟩ := ih s h3
          exact ⟨l2, List.mem_cons_of_mem line hl2, hp⟩

theorem cleanLines_id :
    ∀ L : List (List Char),
      (∀ s ∈ L, pyStrip s = s ∧ s ≠ [] ∧ isNoise s = false) →
      cleanLines L = L := by
  intro L
  induction L with
  | nil => intro _; rfl
  | cons s rest ih =>
    intro h
    obtain ⟨hstrip, hne, hnoise⟩ := h s (List.mem_cons_self s rest)
    have hshow : cleanLines (s :: rest) =
        (if pyStrip s = [] then cleanLines rest
         else if isNoise (pyStrip s) then cleanLines rest
         else pyStrip s :: cleanLines rest) := rfl
    rw [hshow, hstrip, if_neg hne, if_neg (by rw [hnoise]; simp)]
    rw [ih (fun t ht => h t (List.mem_cons_of_mem s ht))]

/-- **C4.** The noise filter is idempotent:
`clean_terminal_output (clean_terminal_output x) = clean_terminal_output x`
for every input. -/
theorem clean_terminal_output_idempotent :
    ∀ x : List Char,
      clean_terminal_output (clean_terminal_output x) = clean_terminal_output x := by
  intro x
  have hy0 : strip_ansi x =
      collapseAux false (subNoiseAux false (removeCtrl (stripAnsiEsc x))) := rfl
  -- character inventory of `strip_ansi x`
  have hy0ctrl : ∀ c ∈ strip_ansi x, isCtrl c = false := by
    intro c hc
    rw [hy0] at hc
    rcases mem_collapseAux _ _ _ hc with h1 | h1
    · rcases mem_subNoiseAux _ _ _ h1 with h2 | h2
      · have := List.mem_filter.mp h2
        simpa using this.2
      · rw [h2]; decide
    · rw [h1]; decide
  have hy0noise : ∀ c ∈ strip_ansi x, isUniNoise c = false := by
    intro c hc
    rw [hy0] at hc
    rcases mem_collapseAux _ _ _ hc with h1 | h1
    · exact subNoiseAux_noise_free _ _ _ h1
    · rw [h1]; decide
  have hy0dbl : noDbl (strip_ansi x) := by
    rw [hy0]
    exact collapseAux_noDbl _ false
  -- the kept lines and their properties
  have hyx : clean_terminal_output x =
      joinNL (cleanLines (pySplitlines (strip_ansi x))) := rfl
  have hprops : ∀ s ∈ cleanLines (pySplitlines (strip_ansi x)),
      pyStrip s = s ∧ s ≠ [] ∧ isNoise s = false ∧
      (∀ c ∈ s, isLineSep c = false) ∧ noDbl s ∧
      (∀ c ∈ s, isCtrl c = false) ∧ (∀ c ∈ s, isUniNoise c = false) := by
    intro s hs
    obtain ⟨line, hlineM, hs_eq, hs_ne, hs_noise⟩ := cleanLines_mem _ s hs
    have hchars : ∀ c ∈ line, c ∈ strip_ansi x ∧ isLineSep c = false :=
      pySplitlinesAux_line_chars _ false line hlineM
    have hline_dbl : noDbl line := pySplitlinesAux_noDbl _ false hy0dbl line hlineM
    have hsubset : ∀ c ∈ s, c ∈ line := by
      intro c hc
      refine mem_pyStrip (l := line) ?_
      rw [← hs_eq]
      exact hc
    refine ⟨?_, hs_ne, hs_noise, ?_, ?_, ?_, ?_⟩
    · rw [hs_eq]
      exact pyStrip_idem line
    · intro c hc
      exact (hchars c (hsubset c hc)).2
    · rw [hs_eq]
      exact pyStrip_noDbl hline_dbl
    · intro c hc
      exact hy0ctrl c (hchars c (hsubset c hc)).1
    · intro c hc
      exact hy0noise c (hchars c (hsubset c hc)).1
  -- `strip_ansi` is the identity on the cleaned output
  have hstep1 : strip_ansi (clean_terminal_output x) = clean_terminal_output x := by
    apply strip_ansi_id
    · intro c hc
      rw [hyx] at hc
      rcases mem_joinNL _ c hc with h1 | ⟨s, hsL, hcs⟩
      · rw [h1]; decide
      · exact ((hprops s hsL).2.2.2.2.2.1) c hcs
    · intro c hc
      rw [hyx] at hc
      rcases mem_joinNL _ c hc with h1 | ⟨s, hsL, hcs⟩
      · rw [h1]; decide
      · exact ((hprops s hsL).2.2.2.2.2.2) c hcs
    · rw [hyx]
      exact noDbl_joinNL _ (fun s hs => (hprops s hs).2.2.2.2.1)
  -- splitting the joined output recovers the kept lines
  have hstep2 : pySplitlines (clean_terminal_output x) =
      cleanLines (pySplitlines (strip_ansi x)) := by
    rw [hyx]
    exact pySplitlines_joinNL _ (fun s hs =>
      ⟨(hprops s hs).2.1, (hprops s hs).2.2.2.1⟩)
  -- the kept lines pass the filter unchanged
  have hstep3 : cleanLines (cleanLines (pySplitlines (strip_ansi x))) =
      cleanLines (pySplitlines (strip_ansi x)) :=
    cleanLines_id _ (fun s hs =>
      ⟨(hprops s hs).1, (hprops s hs).2.1, (hprops s hs).2.2.1⟩)
  show joinNL (cleanLines (pySplitlines (strip_ansi (clean_terminal_output x))))
      = clean_terminal_output x
  rw [hstep1, hstep2, hstep3, hyx]

end Narrator
